import Mathlib

/-!
Verification of the TrailBlazer trail-network graph engine.

The development shallowly embeds the Python sources of the repository:

* `web/backend/services/segment_service.py` — segment extraction from a
  time-ordered GPS point stream (`download_segments`),
* `web/backend/services/graph.py` — graph construction (`make_graph`),
  collinear simplification (`simplify_graph`, `_angle_of`), nearest-node
  lookup (`find_closest_node`),
* `web/backend/app.py` — POI augmentation and per-monument route results
  (`process_route_calculation`),
* `web/backend/services/monument_service.py` — area filtering of monuments
  (`get_monuments_by_type_and_area`).

Machine floats of the source are modelled by exact rationals; the external
trigonometric primitives (the `haversine` package's great-circle distance and
`math.acos`/`math.degrees`) are threaded through as explicit function
parameters `d` and `acosDeg`, so every control-flow decision of the source is
embedded exactly while the transcendental numerics stay abstract.
-/

set_option autoImplicit false

namespace TrailBlazer

/-- A coordinate, the `(lat, lon)` tuple used as a graph node in
`graph.py` (`start_node = (start_point.lat, start_point.lon)`). -/
abbrev Coord := ℚ × ℚ

/-! ## Segment extraction (`segment_service.py`, `download_segments`) -/

/-- One row of `pointinfo.txt` as loaded by `_load_points`:
`(lat, lon, time, track, page)`.  The timestamp is modelled in seconds. -/
structure TPoint where
  lat : ℚ
  lon : ℚ
  time : ℚ
  track : ℤ
  page : ℤ
deriving DecidableEq, Repr, Inhabited

/-- The four-part guard of `download_segments` (lines 201–207):
time gap below `time_delta`, centroid distance below `distance_delta`,
different cluster labels, equal track and equal page. -/
def segCondB (time_delta distance_delta : ℚ) (d : Coord → Coord → ℚ)
    (pts : List TPoint) (labels : ℕ → ℕ) (centers : ℕ → Coord) (i : ℕ) : Bool :=
  let p1 := pts.getD (i - 1) default
  let p2 := pts.getD i default
  let c1 := centers (labels (i - 1))
  let c2 := centers (labels i)
  decide (|p2.time - p1.time| < time_delta) &&
  decide (d c1 c2 < distance_delta) &&
  decide (labels (i - 1) ≠ labels i) &&
  decide (p1.track = p2.track) &&
  decide (p1.page = p2.page)

/-- The same guard as a proposition. -/
def SegCond (time_delta distance_delta : ℚ) (d : Coord → Coord → ℚ)
    (pts : List TPoint) (labels : ℕ → ℕ) (centers : ℕ → Coord) (i : ℕ) : Prop :=
  |(pts.getD i default).time - (pts.getD (i - 1) default).time| < time_delta ∧
  d (centers (labels (i - 1))) (centers (labels i)) < distance_delta ∧
  labels (i - 1) ≠ labels i ∧
  (pts.getD (i - 1) default).track = (pts.getD i default).track ∧
  (pts.getD (i - 1) default).page = (pts.getD i default).page

theorem segCondB_iff (td dd : ℚ) (d : Coord → Coord → ℚ)
    (pts : List TPoint) (labels : ℕ → ℕ) (centers : ℕ → Coord) (i : ℕ) :
    segCondB td dd d pts labels centers i = true ↔ SegCond td dd d pts labels centers i := by
  simp [segCondB, SegCond, and_assoc]

/-- What iteration `i` of the loop in `download_segments` contributes:
`none` when the guard fails, otherwise the centroid pair oriented by the
look-ahead heuristic of lines 208–212. -/
def emitAt (td dd : ℚ) (d : Coord → Coord → ℚ)
    (pts : List TPoint) (labels : ℕ → ℕ) (centers : ℕ → Coord) (i : ℕ) :
    Option (Coord × Coord) :=
  let c1 := centers (labels (i - 1))
  let c2 := centers (labels i)
  if segCondB td dd d pts labels centers i then
    if i + 1 < pts.length ∧ labels (i + 1) < labels i then
      some (c1, c2)
    else
      some (c2, c1)
  else
    none

/-- Python `set.add`: append only when absent. -/
def setAdd (s : List (Coord × Coord)) (x : Coord × Coord) : List (Coord × Coord) :=
  if x ∈ s then s else s ++ [x]

/-- The segment-building loop of `download_segments`
(`for i in range(1, len(all_points)): ...`), accumulating the Python `set`
as a duplicate-free list. -/
def download_segments (td dd : ℚ) (d : Coord → Coord → ℚ)
    (pts : List TPoint) (labels : ℕ → ℕ) (centers : ℕ → Coord) :
    List (Coord × Coord) :=
  (List.range' 1 (pts.length - 1)).foldl
    (fun acc i =>
      match emitAt td dd d pts labels centers i with
      | some s => setAdd acc s
      | none => acc)
    []

theorem mem_setAdd (s : List (Coord × Coord)) (x y : Coord × Coord) :
    y ∈ setAdd s x ↔ y ∈ s ∨ y = x := by
  by_cases h : x ∈ s
  · simp only [setAdd, if_pos h]
    constructor
    · exact Or.inl
    · rintro (hy | rfl)
      · exact hy
      · exact h
  · simp [setAdd, if_neg h]

theorem mem_download_fold (td dd : ℚ) (d : Coord → Coord → ℚ)
    (pts : List TPoint) (labels : ℕ → ℕ) (centers : ℕ → Coord)
    (x : Coord × Coord) :
    ∀ (is : List ℕ) (acc : List (Coord × Coord)),
      (x ∈ is.foldl
        (fun acc i =>
          match emitAt td dd d pts labels centers i with
          | some s => setAdd acc s
          | none => acc)
        acc) ↔ x ∈ acc ∨ ∃ i ∈ is, emitAt td dd d pts labels centers i = some x := by
  intro is
  induction is with
  | nil => simp
  | cons j js ih =>
    intro acc
    simp only [List.foldl_cons, ih]
    cases hj : emitAt td dd d pts labels centers j with
    | none =>
      simp only [List.mem_cons]
      constructor
      · rintro (hx | ⟨i, hi, hsome⟩)
        · exact Or.inl hx
        · exact Or.inr ⟨i, Or.inr hi, hsome⟩
      · rintro (hx | ⟨i, hi | hi, hsome⟩)
        · exact Or.inl hx
        · rw [hi] at hsome; rw [hsome] at hj; cases hj
        · exact Or.inr ⟨i, hi, hsome⟩
    | some s =>
      rw [mem_setAdd]
      simp only [List.mem_cons]
      constructor
      · rintro ((hx | rfl) | ⟨i, hi, hsome⟩)
        · exact Or.inl hx
        · exact Or.inr ⟨j, Or.inl rfl, hj⟩
        · exact Or.inr ⟨i, Or.inr hi, hsome⟩
      · rintro (hx | ⟨i, hi | hi, hsome⟩)
        · exact Or.inl (Or.inl hx)
        · rw [hi] at hsome; rw [hsome] at hj
          exact Or.inl (Or.inr (Option.some_inj.mp hj))
        · exact Or.inr ⟨i, hi, hsome⟩

theorem mem_download_segments (td dd : ℚ) (d : Coord → Coord → ℚ)
    (pts : List TPoint) (labels : ℕ → ℕ) (centers : ℕ → Coord)
    (x : Coord × Coord) :
    x ∈ download_segments td dd d pts labels centers ↔
      ∃ i, 1 ≤ i ∧ i < pts.length ∧ emitAt td dd d pts labels centers i = some x := by
  rw [download_segments, mem_download_fold]
  simp only [List.mem_range'_1, List.not_mem_nil, false_or]
  constructor
  · rintro ⟨i, ⟨h1, h2⟩, hsome⟩
    exact ⟨i, h1, by omega, hsome⟩
  · rintro ⟨i, h1, h2, hsome⟩
    exact ⟨i, ⟨h1, by omega⟩, hsome⟩

/-! ## Clustering dispatch (`download_segments` line 184, claim C7) -/

/-- The cluster count handed to KMeans in `download_segments` line 184:
`KMeans(n_clusters=min(self.n_clusters, len(all_points)), ...)`.  The call is
unconditional — there is no small-input branch in the service. -/
def nClustersUsed (n_clusters n : ℕ) : ℕ := min n_clusters n

/-- The identity labeling (point `i` gets label `i`) that the claim says
small inputs receive. -/
def identityLabels (n : ℕ) : List ℕ := List.range n

/-- Modelled from the spec: half of the contract of the external
`sklearn.cluster.KMeans` the pipeline relies on — fitting `n` points with `k`
clusters yields one label per point, each label an index below `k`
(spec §4.1: output is a centroid-per-label array plus a label per point,
with the cluster count clamped to `[1, n]`). -/
def validLabelsB (k : ℕ) (ls : List ℕ) : Bool := ls.all (fun l => decide (l < k))

/-- Modelled from the spec: the other half of the KMeans output contract —
`cluster_centers_` holds exactly one centroid per cluster, so fitting with
`k` clusters yields a centroid list of length `k` (spec §4.1:
"centroid-per-label array"). -/
def validCentersB (k : ℕ) (centers : List Coord) : Bool := decide (centers.length = k)

/-! ## Monument area filter (`monument_service.py`, claim C10) -/

structure BoxQ where
  bottom_left : Coord
  top_right : Coord
deriving DecidableEq, Repr

/-- Python truthiness of an optional float parameter: `None` and `0.0` are
both falsy, which is what `all([...])` on the raw parameter values tests in
`get_monuments_by_type_and_area` (line 43). -/
def pyTruthy : Option ℚ → Bool
  | none => false
  | some x => decide (x ≠ 0)

/-- The search-box selection of `get_monuments_by_type_and_area`
(lines 43–52): the supplied corners are used only when all four values are
truthy; otherwise the default box is taken. -/
def chooseSearchBox (defaultBox : BoxQ)
    (bl_lat bl_lon tr_lat tr_lon : Option ℚ) : BoxQ :=
  if pyTruthy bl_lat && pyTruthy bl_lon && pyTruthy tr_lat && pyTruthy tr_lon then
    ⟨(bl_lat.getD 0, bl_lon.getD 0), (tr_lat.getD 0, tr_lon.getD 0)⟩
  else
    defaultBox

/-- The inclusive range test of the monument filter (lines 71–74). -/
def inBoxB (box : BoxQ) (p : Coord) : Bool :=
  decide (box.bottom_left.1 ≤ p.1) && decide (p.1 ≤ box.top_right.1) &&
  decide (box.bottom_left.2 ≤ p.2) && decide (p.2 ≤ box.top_right.2)

structure MonumentQ where
  name : String
  loc : Coord
deriving DecidableEq, Repr

/-- The area-filtering core of `get_monuments_by_type_and_area`
(lines 69–82): keep the monuments inside the selected search box. -/
def get_monuments_by_type_and_area (defaultBox : BoxQ) (monuments : List MonumentQ)
    (bl_lat bl_lon tr_lat tr_lon : Option ℚ) : List MonumentQ :=
  monuments.filter
    (fun m => inBoxB (chooseSearchBox defaultBox bl_lat bl_lon tr_lat tr_lon) m.loc)

/-! ## Claims C1, C6, C7, C10 -/

/-- C1: for every temporally adjacent pair `(i-1, i)` of the input sequence,
the extractor emits a segment between the two cluster centroids iff the time
gap is under the time threshold, the centroid distance is under the distance
threshold, the labels differ, and track and page agree; any emitted segment
is one of the two orientations of the centroid pair, an emitted segment ends
up in the output set, and a pair whose time gap reaches the threshold emits
nothing. -/
theorem C1_segment_emission_iff (td dd : ℚ) (d : Coord → Coord → ℚ)
    (pts : List TPoint) (labels : ℕ → ℕ) (centers : ℕ → Coord)
    (i : ℕ) (h1 : 1 ≤ i) (h2 : i < pts.length) :
    ((∃ s, emitAt td dd d pts labels centers i = some s) ↔
      SegCond td dd d pts labels centers i) ∧
    (∀ s, emitAt td dd d pts labels centers i = some s →
      s = (centers (labels (i - 1)), centers (labels i)) ∨
      s = (centers (labels i), centers (labels (i - 1)))) ∧
    (∀ s, emitAt td dd d pts labels centers i = some s →
      s ∈ download_segments td dd d pts labels centers) ∧
    (td ≤ |(pts.getD i default).time - (pts.getD (i - 1) default).time| →
      emitAt td dd d pts labels centers i = none) := by
  refine ⟨?_, ?_, ?_, ?_⟩
  · by_cases hb : segCondB td dd d pts labels centers i = true
    · refine ⟨fun _ => (segCondB_iff td dd d pts labels centers i).mp hb, fun _ => ?_⟩
      rw [emitAt, if_pos hb]
      split
      · exact ⟨_, rfl⟩
      · exact ⟨_, rfl⟩
    · have hnc : ¬ SegCond td dd d pts labels centers i := by
        rw [← segCondB_iff]; exact hb
      rw [emitAt, if_neg hb]
      simp [hnc]
  · intro s hs
    rw [emitAt] at hs
    split at hs
    · split at hs
      · exact Or.inl (Option.some_inj.mp hs).symm
      · exact Or.inr (Option.some_inj.mp hs).symm
    · cases hs
  · intro s hs
    exact (mem_download_segments td dd d pts labels centers s).mpr ⟨i, h1, h2, hs⟩
  · intro ht
    rw [emitAt]
    rw [if_neg]
    rw [segCondB_iff]
    intro hc
    exact absurd hc.1 (not_lt.mpr ht)

/-- Concrete inputs for the C1 witness: two points two seconds apart, same
track and page, labels `0` and `1`, nearby centroids. -/
def ptsW : List TPoint :=
  [⟨41, 2, 0, 0, 0⟩, ⟨41, 2 + 1/2000, 2, 0, 0⟩]

def centersW : ℕ → Coord := fun n => (41, 2 + (n : ℚ) / 2000)

def dW : Coord → Coord → ℚ := fun p q => if p = q then 0 else 1/20

theorem C1_segment_emission_iff_witness :
    1 ≤ 1 ∧ 1 < ptsW.length ∧
      (∃ s, emitAt 300 (1/10) dW ptsW (fun i => i) centersW 1 = some s) := by
  refine ⟨le_refl 1, by simp [ptsW], ?_⟩
  refine ((C1_segment_emission_iff 300 (1/10) dW ptsW (fun i => i) centersW 1
    (le_refl 1) (by simp [ptsW])).1).mpr ?_
  rw [← segCondB_iff]
  norm_num [segCondB, ptsW, centersW, dW, Prod.ext_iff]

/-- Inputs refuting C6: four points with labels 0,1,0,1.  At `i = 1` the
look-ahead (`labels 2 = 0 < labels 1 = 1`) emits `(c0, c1)`; at `i = 3` there
is no look-ahead point, so the reversed orientation `(c1, c0)` is emitted. -/
def ptsC6 : List TPoint :=
  [⟨41, 2, 0, 0, 0⟩, ⟨41, 2 + 1/2000, 1, 0, 0⟩, ⟨41, 2, 2, 0, 0⟩,
    ⟨41, 2 + 1/2000, 3, 0, 0⟩]

def centersC6 : ℕ → Coord := fun n => if n = 0 then (41, 2) else (41, 2 + 1/2000)

/-- Great-circle distance table for the two centroids: about 0.0556 km
between `(41, 2)` and `(41, 2.0005)`, close to the real haversine value. -/
def dC6 : Coord → Coord → ℚ := fun p q => if p = q then 0 else 556/10000

/-- C6 counterexample: the look-ahead canonicalization does not deduplicate
undirected pairs — on the label sequence 0,1,0,1 the output contains both
orientations of the same centroid pair. -/
theorem C6_counterexample :
    download_segments 300 (1/10) dC6 ptsC6 (fun i => i % 2) centersC6 =
      [((41, 2), ((41 : ℚ), (2 + 1/2000 : ℚ))),
        (((41 : ℚ), (2 + 1/2000 : ℚ)), ((41 : ℚ), (2 : ℚ)))] ∧
      ((41 : ℚ), (2 : ℚ)) ≠ ((41 : ℚ), (2 + 1/2000 : ℚ)) := by
  constructor
  · norm_num [download_segments, emitAt, segCondB, setAdd, ptsC6, centersC6, dC6,
      List.range', Prod.ext_iff]
  · norm_num [Prod.ext_iff]

/-- C6 amended: the extractor's output is deduplicated only as a set of
ordered pairs — no ordered centroid pair occurs twice — while the look-ahead
heuristic does not prevent the same unordered pair from appearing in both
orientations. -/
theorem C6_amended_ordered_dedup (td dd : ℚ) (d : Coord → Coord → ℚ)
    (pts : List TPoint) (labels : ℕ → ℕ) (centers : ℕ → Coord) :
    (download_segments td dd d pts labels centers).Nodup := by
  rw [download_segments]
  have hgen : ∀ (is : List ℕ) (acc : List (Coord × Coord)), acc.Nodup →
      (is.foldl
        (fun acc i =>
          match emitAt td dd d pts labels centers i with
          | some s => setAdd acc s
          | none => acc)
        acc).Nodup := by
    intro is
    induction is with
    | nil => intro acc h; exact h
    | cons j js ih =>
      intro acc hacc
      rw [List.foldl_cons]
      have hstep :
          (match emitAt td dd d pts labels centers j with
            | some s => setAdd acc s
            | none => acc).Nodup := by
        cases hj : emitAt td dd d pts labels centers j with
        | none => simpa [hj] using hacc
        | some s =>
          show (setAdd acc s).Nodup
          by_cases hmem : s ∈ acc
          · simpa [setAdd, hmem] using hacc
          · simp only [setAdd, if_neg hmem]
            simp [List.nodup_append, hacc, hmem]
      exact ih _ hstep
  exact hgen _ [] List.nodup_nil

/-- C7 counterexample: for the in-between sizes (here `n = 501` with the
default `n_clusters = 500`) the code still calls KMeans with
`min(n_clusters, n) = 500` clusters, and the identity labeling on 501 points
is not even a possible output of that call, since label 500 is out of range. -/
theorem C7_counterexample :
    nClustersUsed 500 501 = 500 ∧
      validLabelsB (nClustersUsed 500 501) (identityLabels 501) = false := by
  constructor
  · rfl
  · rw [validLabelsB, List.all_eq_false]
    exact ⟨500, by simp [identityLabels, nClustersUsed], by simp [nClustersUsed]⟩

/-- C7 amended: clustering is never skipped — for every input the pipeline
invokes KMeans with `min(n_clusters, n)` clusters, so whenever
`n_clusters < n` (in particular for every `500 < n < 1000` under the default
settings) the returned labeling cannot be the identity mapping, and the
returned centroid list — one centroid per cluster — cannot equal the list of
the points' own coordinates. -/
theorem C7_amended_no_skip (n_clusters n : ℕ) :
    nClustersUsed n_clusters n = min n_clusters n ∧
      (n_clusters < n →
        validLabelsB (nClustersUsed n_clusters n) (identityLabels n) = false ∧
        ∀ (centers pts : List Coord),
          validCentersB (nClustersUsed n_clusters n) centers = true →
          pts.length = n → centers ≠ pts) := by
  refine ⟨rfl, fun h => ⟨?_, ?_⟩⟩
  · have hmin : nClustersUsed n_clusters n = n_clusters := min_eq_left (le_of_lt h)
    rw [hmin]
    rw [validLabelsB]
    rw [List.all_eq_false]
    exact ⟨n_clusters, by simpa [identityLabels] using h, by simp⟩
  · intro centers pts hc hp heq
    rw [validCentersB, decide_eq_true_iff] at hc
    have hmin : nClustersUsed n_clusters n = n_clusters := min_eq_left (le_of_lt h)
    rw [hmin] at hc
    rw [heq, hp] at hc
    omega

theorem C7_amended_no_skip_witness :
    500 < 501 ∧
      validLabelsB (nClustersUsed 500 501) (identityLabels 501) = false ∧
      validCentersB (nClustersUsed 500 501) (List.replicate 500 ((41 : ℚ), (2 : ℚ))) =
        true ∧
      (List.replicate 501 ((41 : ℚ), (2 : ℚ))).length = 501 ∧
      List.replicate 500 ((41 : ℚ), (2 : ℚ)) ≠ List.replicate 501 ((41 : ℚ), (2 : ℚ)) := by
  have hc : validCentersB (nClustersUsed 500 501)
      (List.replicate 500 ((41 : ℚ), (2 : ℚ))) = true := by
    rw [validCentersB, List.length_replicate]
    decide
  have hp : (List.replicate 501 ((41 : ℚ), (2 : ℚ))).length = 501 :=
    List.length_replicate 501 _
  exact ⟨by decide, ((C7_amended_no_skip 500 501).2 (by decide)).1, hc, hp,
    ((C7_amended_no_skip 500 501).2 (by decide)).2 _ _ hc hp⟩

/-- C10: when any of the four supplied bounding-box coordinates is omitted or
equals 0.0, the truthiness test in `get_monuments_by_type_and_area` discards
the supplied box and the monuments are filtered against the default box. -/
theorem C10_zero_coordinate_uses_default (defaultBox : BoxQ)
    (monuments : List MonumentQ) (bl_lat bl_lon tr_lat tr_lon : Option ℚ)
    (h : bl_lat = none ∨ bl_lat = some 0 ∨ bl_lon = none ∨ bl_lon = some 0 ∨
      tr_lat = none ∨ tr_lat = some 0 ∨ tr_lon = none ∨ tr_lon = some 0) :
    chooseSearchBox defaultBox bl_lat bl_lon tr_lat tr_lon = defaultBox ∧
      get_monuments_by_type_and_area defaultBox monuments bl_lat bl_lon tr_lat tr_lon =
        monuments.filter (fun m => inBoxB defaultBox m.loc) := by
  have hbox : chooseSearchBox defaultBox bl_lat bl_lon tr_lat tr_lon = defaultBox := by
    rw [chooseSearchBox]
    rw [if_neg]
    intro hall
    rcases h with rfl | rfl | rfl | rfl | rfl | rfl | rfl | rfl <;>
      simp [pyTruthy] at hall
  refine ⟨hbox, ?_⟩
  rw [get_monuments_by_type_and_area]
  rw [hbox]

def defaultBoxW : BoxQ := ⟨(40, 0), (43, 4)⟩

def monumentsW : List MonumentQ := [⟨"m", (1, 3)⟩]

/-- The C10 witness also records that filtering against the default box gives
a different answer than the caller-supplied equator-touching box would: the
monument at `(1, 3)` lies inside the supplied box `(0,2)–(3,4)` but is
dropped. -/
theorem C10_zero_coordinate_uses_default_witness :
    (some (0 : ℚ) = none ∨ some (0 : ℚ) = some 0 ∨ some (2 : ℚ) = none ∨
      some (2 : ℚ) = some 0 ∨ some (3 : ℚ) = none ∨ some (3 : ℚ) = some 0 ∨
      some (4 : ℚ) = none ∨ some (4 : ℚ) = some 0) ∧
    (get_monuments_by_type_and_area defaultBoxW monumentsW
        (some 0) (some 2) (some 3) (some 4) =
      monumentsW.filter (fun m => inBoxB defaultBoxW m.loc)) ∧
    monumentsW.filter (fun m => inBoxB ⟨(0, 2), (3, 4)⟩ m.loc) = monumentsW := by
  refine ⟨Or.inr (Or.inl rfl), ?_, by decide⟩
  exact (C10_zero_coordinate_uses_default defaultBoxW monumentsW
    (some 0) (some 2) (some 3) (some 4) (Or.inr (Or.inl rfl))).2

/-! ## Undirected weighted graphs (`graph.py` on networkx semantics)

`graph.py` manipulates `networkx.Graph` objects through `add_edge`,
`remove_edge`, `remove_node`, `adj`, `degree` and the node list only.  The
embedding keeps nodes and edges in insertion order, one record per
undirected edge, mirroring networkx's adjacency-dict behaviour for exactly
this operation set (including self-loops, which networkx permits). -/

structure WGraph where
  nodes : List Coord
  edges : List (Coord × Coord × ℚ)
deriving DecidableEq, Repr

/-- Whether `{x, y}` and `{a, b}` are the same unordered endpoint pair. -/
def sameEnds (a b x y : Coord) : Bool :=
  decide ((x = a ∧ y = b) ∨ (x = b ∧ y = a))

/-- Whether edge record `e` joins the unordered pair `{a, b}`. -/
def matchEdge (a b : Coord) (e : Coord × Coord × ℚ) : Bool :=
  sameEnds a b e.1 e.2.1

def addNode (g : WGraph) (v : Coord) : WGraph :=
  if v ∈ g.nodes then g else ⟨g.nodes ++ [v], g.edges⟩

/-- `networkx.Graph.add_edge(a, b, weight=w)`: missing endpoints become
nodes; an existing `{a, b}` edge gets its weight overwritten, otherwise a
new edge record is appended. -/
def addEdge (g : WGraph) (a b : Coord) (w : ℚ) : WGraph :=
  if g.edges.any (matchEdge a b) then
    ⟨(addNode (addNode g a) b).nodes,
      g.edges.map (fun e => if matchEdge a b e then (e.1, e.2.1, w) else e)⟩
  else
    ⟨(addNode (addNode g a) b).nodes, g.edges ++ [(a, b, w)]⟩

def hasEdgeB (g : WGraph) (a b : Coord) : Bool := g.edges.any (matchEdge a b)

def edgeWeight (g : WGraph) (a b : Coord) : Option ℚ :=
  (g.edges.find? (matchEdge a b)).map (fun e => e.2.2)

/-- `networkx.Graph.remove_edge(a, b)`. -/
def removeEdge (g : WGraph) (a b : Coord) : WGraph :=
  ⟨g.nodes, g.edges.filter (fun e => !(matchEdge a b e))⟩

def incidentB (v : Coord) (e : Coord × Coord × ℚ) : Bool :=
  decide (e.1 = v) || decide (e.2.1 = v)

/-- `networkx.Graph.remove_node(v)`: the node and every incident edge go. -/
def removeNode (g : WGraph) (v : Coord) : WGraph :=
  ⟨g.nodes.filter (fun x => !(decide (x = v))),
    g.edges.filter (fun e => !(incidentB v e))⟩

/-- The neighbour an edge record contributes to `adj[v]`, if incident. -/
def nbrSel (v : Coord) (e : Coord × Coord × ℚ) : Option Coord :=
  if e.1 = v then some e.2.1 else if e.2.1 = v then some e.1 else none

/-- The neighbour list `list(graph.adj[v])`, in insertion order; a self-loop
contributes `v` once, as in a networkx adjacency dict. -/
def nbrs (g : WGraph) (v : Coord) : List Coord :=
  g.edges.filterMap (nbrSel v)

/-- `graph.degree(v)`: a self-loop counts twice, as in networkx. -/
def degreeOf (g : WGraph) (v : Coord) : ℕ :=
  (nbrs g v).length + g.edges.countP (fun e => decide (e.1 = v) && decide (e.2.1 = v))

/-- `GraphService.make_graph` (graph.py lines 30–46): fold the segment list
into a fresh graph; every edge weight is recomputed as the great-circle
distance `d` of the segment endpoints. -/
def make_graph (d : Coord → Coord → ℚ) (segments : List (Coord × Coord)) : WGraph :=
  segments.foldl (fun g s => addEdge g s.1 s.2 (d s.1 s.2)) ⟨[], []⟩

/-- The clamped law-of-cosines cosine of `_angle_of` (graph.py lines
120–123). -/
def cosArgQ (d1 d2 d3 : ℚ) : ℚ :=
  max (-1) (min 1 ((d1 ^ 2 + d2 ^ 2 - d3 ^ 2) / (2 * d1 * d2)))

/-- `GraphService._angle_of` (graph.py lines 98–125): great-circle distances
via `d`, the zero-distance guard returning 180°, then `degrees(acos(·))` on
the clamped cosine, abstracted as `acosDeg`. -/
def angle_of (d : Coord → Coord → ℚ) (acosDeg : ℚ → ℚ) (p1 p2 p3 : Coord) : ℚ :=
  if d p1 p2 = 0 ∨ d p2 p3 = 0 then 180
  else acosDeg (cosArgQ (d p1 p2) (d p2 p3) (d p1 p3))

/-- The body of the simplification loop (graph.py lines 67–92) for one
snapshot node: with exactly two current neighbours and an angle within
`epsilon` of 180°, the node and its two edges are removed and the neighbours
joined directly with weight `d g1 g3`; otherwise the graph is untouched.
In the rational model the `except` branch of the source is dead code:
`_angle_of` guards its division and the clamp keeps `acos` in domain. -/
def simpStep (d : Coord → Coord → ℚ) (acosDeg : ℚ → ℚ) (epsilon : ℚ)
    (g : WGraph) (v : Coord) : WGraph :=
  match nbrs g v with
  | [g1, g3] =>
    if |180 - angle_of d acosDeg g1 v g3| < epsilon then
      addEdge (removeNode (removeEdge (removeEdge g g1 v) v g3) v) g1 g3 (d g1 g3)
    else g
  | _ => g

/-- `GraphService.simplify_graph` (graph.py lines 48–96): one sweep of
`simpStep` over the snapshot of degree-2 nodes. -/
def simplify_graph (d : Coord → Coord → ℚ) (acosDeg : ℚ → ℚ)
    (g : WGraph) (epsilon : ℚ) : WGraph :=
  (g.nodes.filter (fun v => decide (degreeOf g v = 2))).foldl
    (simpStep d acosDeg epsilon) g

/-- The scan of `find_closest_node` (graph.py lines 139–151): keep the
strictly closest node seen so far; `min_dist` starts at infinity (`none`),
so the first node always wins. -/
def scanClosest (d : Coord → Coord → ℚ) (target : Coord) :
    List Coord → Option (Coord × ℚ) → Option (Coord × ℚ)
  | [], acc => acc
  | n :: ns, acc =>
    match acc with
    | none => scanClosest d target ns (some (n, d target n))
    | some (c, m) =>
      if d target n < m then scanClosest d target ns (some (n, d target n))
      else scanClosest d target ns (some (c, m))

/-- `GraphService.find_closest_node` (graph.py lines 127–151). -/
def find_closest_node (d : Coord → Coord → ℚ) (g : WGraph) (target : Coord) :
    Option Coord :=
  (scanClosest d target g.nodes none).map Prod.fst

/-- The POI-connection step of `process_route_calculation` (app.py lines
356–370): scan for the nearest node — the inline loop is the same scan as
`find_closest_node` — then attach the monument location when the nearest
node lies strictly within 10 km. -/
def connectMonument (d : Coord → Coord → ℚ) (g : WGraph) (loc : Coord) : WGraph :=
  match scanClosest d loc g.nodes none with
  | none => g
  | some (c, m) => if m < 10 then addEdge g loc c m else g

/-! ### Representation invariants -/

/-- No edge record joins a node to itself. -/
def NoSelfLoop (g : WGraph) : Prop := ∀ e ∈ g.edges, e.1 ≠ e.2.1

/-- No two edge records join the same unordered pair. -/
def DupFree (g : WGraph) : Prop :=
  g.edges.Pairwise (fun e1 e2 => matchEdge e1.1 e1.2.1 e2 = false)

/-- Every edge endpoint is a node. -/
def EdgesClosed (g : WGraph) : Prop :=
  ∀ e ∈ g.edges, e.1 ∈ g.nodes ∧ e.2.1 ∈ g.nodes

/-- Every stored weight is the `d`-distance of its endpoints. -/
def WeightsAre (d : Coord → Coord → ℚ) (g : WGraph) : Prop :=
  ∀ e ∈ g.edges, e.2.2 = d e.1 e.2.1

/-! ### Basic lemmas about endpoint matching -/

theorem sameEnds_iff (a b x y : Coord) :
    sameEnds a b x y = true ↔ (x = a ∧ y = b) ∨ (x = b ∧ y = a) := by
  simp [sameEnds]

theorem sameEnds_comm (a b x y : Coord) : sameEnds a b x y = sameEnds x y a b := by
  rw [sameEnds, sameEnds, decide_eq_decide]
  tauto

theorem matchEdge_ends (a b : Coord) (e : Coord × Coord × ℚ) :
    matchEdge a b e = sameEnds a b e.1 e.2.1 := rfl

theorem matchEdge_both (a b x y : Coord) (e : Coord × Coord × ℚ)
    (h1 : matchEdge a b e = true) (h2 : matchEdge x y e = true) :
    sameEnds a b x y = true := by
  rw [matchEdge, sameEnds_iff] at h1 h2
  rw [sameEnds_iff]
  rcases h1 with ⟨ha, hb⟩ | ⟨ha, hb⟩ <;> rcases h2 with ⟨hx, hy⟩ | ⟨hx, hy⟩ <;>
    rw [← ha, ← hb, ← hx, ← hy] <;> tauto

theorem matchEdge_congr (a b x y : Coord) (h : sameEnds a b x y = true)
    (e : Coord × Coord × ℚ) : matchEdge x y e = matchEdge a b e := by
  rw [sameEnds_iff] at h
  rw [matchEdge, matchEdge, sameEnds, sameEnds, decide_eq_decide]
  rcases h with ⟨rfl, rfl⟩ | ⟨rfl, rfl⟩ <;> tauto

/-- The weight-overwriting function of `addEdge` preserves both endpoints. -/
theorem upd_ends (a b : Coord) (w : ℚ) (e : Coord × Coord × ℚ) :
    ((if matchEdge a b e then (e.1, e.2.1, w) else e)).1 = e.1 ∧
      ((if matchEdge a b e then (e.1, e.2.1, w) else e)).2.1 = e.2.1 := by
  split <;> exact ⟨rfl, rfl⟩

theorem matchEdge_upd (a b x y : Coord) (w : ℚ) (e : Coord × Coord × ℚ) :
    matchEdge x y (if matchEdge a b e then (e.1, e.2.1, w) else e) = matchEdge x y e := by
  split <;> rfl

/-! ### Lemmas about `addNode` and `addEdge` -/

theorem addNode_edges (g : WGraph) (v : Coord) : (addNode g v).edges = g.edges := by
  rw [addNode]
  split <;> rfl

theorem mem_addNode (g : WGraph) (v x : Coord) :
    x ∈ (addNode g v).nodes ↔ x ∈ g.nodes ∨ x = v := by
  rw [addNode]
  split
  · rename_i h
    constructor
    · exact Or.inl
    · rintro (hx | rfl)
      · exact hx
      · exact h
  · simp

theorem addNode_of_mem {g : WGraph} {v : Coord} (h : v ∈ g.nodes) : addNode g v = g := by
  rw [addNode, if_pos h]

theorem addEdge_nodes (g : WGraph) (a b : Coord) (w : ℚ) :
    (addEdge g a b w).nodes = (addNode (addNode g a) b).nodes := by
  rw [addEdge]
  split <;> rfl

theorem mem_addEdge_nodes (g : WGraph) (a b : Coord) (w : ℚ) (x : Coord) :
    x ∈ (addEdge g a b w).nodes ↔ x ∈ g.nodes ∨ x = a ∨ x = b := by
  rw [addEdge_nodes, mem_addNode, mem_addNode]
  tauto

theorem find?_update_self (a b : Coord) (w : ℚ) :
    ∀ l : List (Coord × Coord × ℚ), l.any (matchEdge a b) = true →
      ((l.map (fun e => if matchEdge a b e then (e.1, e.2.1, w) else e)).find?
          (matchEdge a b)).map (fun e => e.2.2) = some w := by
  intro l
  induction l with
  | nil => simp
  | cons e l ih =>
    intro hl
    by_cases he : matchEdge a b e = true
    · have h1 : matchEdge a b ((e.1, e.2.1, w) : Coord × Coord × ℚ) = true := he
      simp only [List.map_cons, if_pos he]
      rw [List.find?_cons_of_pos _ h1]
      rfl
    · have he' : matchEdge a b e = false := by simpa using he
      have hl' : l.any (matchEdge a b) = true := by
        rcases List.any_eq_true.mp hl with ⟨x, hx, hxm⟩
        rcases List.mem_cons.mp hx with rfl | hmem
        · rw [hxm] at he'; cases he'
        · exact List.any_eq_true.mpr ⟨x, hmem, hxm⟩
      have h2 : matchEdge a b ((if matchEdge a b e then (e.1, e.2.1, w) else e)) = false := by
        rw [matchEdge_upd]; exact he'
      simp only [List.map_cons, if_neg (by simp [he'] : ¬ matchEdge a b e = true)]
      rw [List.find?_cons_of_neg _ (by simp [he'])]
      exact ih hl'

theorem find?_update_frame (a b x y : Coord) (w : ℚ)
    (hxy : sameEnds a b x y = false) :
    ∀ l : List (Coord × Coord × ℚ),
      (l.map (fun e => if matchEdge a b e then (e.1, e.2.1, w) else e)).find?
          (matchEdge x y) = l.find? (matchEdge x y) := by
  intro l
  induction l with
  | nil => simp
  | cons e l ih =>
    by_cases hx : matchEdge x y e = true
    · have hfe : (if matchEdge a b e then (e.1, e.2.1, w) else e) = e := by
        by_cases hab : matchEdge a b e = true
        · exact absurd (matchEdge_both a b x y e hab hx) (by simp [hxy])
        · simp [hab]
      simp only [List.map_cons, hfe]
      rw [List.find?_cons_of_pos _ hx, List.find?_cons_of_pos _ hx]
    · have hx' : matchEdge x y e = false := by simpa using hx
      have h2 : matchEdge x y ((if matchEdge a b e then (e.1, e.2.1, w) else e)) = false := by
        rw [matchEdge_upd]; exact hx'
      simp only [List.map_cons]
      rw [List.find?_cons_of_neg _ (by simp [h2]), List.find?_cons_of_neg _ (by simp [hx']), ih]

theorem edgeWeight_addEdge_self (g : WGraph) (a b : Coord) (w : ℚ) :
    edgeWeight (addEdge g a b w) a b = some w := by
  rw [addEdge]
  by_cases h : g.edges.any (matchEdge a b) = true
  · rw [if_pos h, edgeWeight]
    exact find?_update_self a b w g.edges h
  · rw [if_neg h, edgeWeight]
    have hnone : g.edges.find? (matchEdge a b) = none := by
      rw [List.find?_eq_none]
      intro e he hme
      exact h (List.any_eq_true.mpr ⟨e, he, hme⟩)
    have hmatch : matchEdge a b ((a, b, w) : Coord × Coord × ℚ) = true := by
      simp [matchEdge, sameEnds]
    rw [List.find?_append, hnone]
    simp [hmatch]

theorem edgeWeight_addEdge_frame (g : WGraph) (a b x y : Coord) (w : ℚ)
    (hxy : sameEnds a b x y = false) :
    edgeWeight (addEdge g a b w) x y = edgeWeight g x y := by
  rw [addEdge]
  by_cases h : g.edges.any (matchEdge a b) = true
  · rw [if_pos h, edgeWeight, edgeWeight, find?_update_frame a b x y w hxy]
  · rw [if_neg h, edgeWeight, edgeWeight]
    have hnew : matchEdge x y ((a, b, w) : Coord × Coord × ℚ) = false := by
      rw [matchEdge_ends]
      rw [show ((a, b, w) : Coord × Coord × ℚ).1 = a from rfl]
      rw [show ((a, b, w) : Coord × Coord × ℚ).2.1 = b from rfl]
      rw [← sameEnds_comm]
      exact hxy
    rw [List.find?_append]
    cases hfind : g.edges.find? (matchEdge x y) with
    | some e => rfl
    | none => simp [hnew]

/-! ### Counting edges of one unordered pair -/

theorem countP_matchEdge_le_one (a b : Coord) :
    ∀ l : List (Coord × Coord × ℚ),
      l.Pairwise (fun e1 e2 => matchEdge e1.1 e1.2.1 e2 = false) →
      l.countP (matchEdge a b) ≤ 1 := by
  intro l
  induction l with
  | nil => simp
  | cons e l ih =>
    intro hp
    rw [List.pairwise_cons] at hp
    by_cases he : matchEdge a b e = true
    · have hz : l.countP (matchEdge a b) = 0 := by
        rw [List.countP_eq_zero]
        intro e' he' hm
        have hself : matchEdge e.1 e.2.1 e = true := by
          rw [matchEdge_ends]
          simp [sameEnds]
        have hsame : sameEnds a b e.1 e.2.1 = true := matchEdge_both a b e.1 e.2.1 e he hself
        have : matchEdge e.1 e.2.1 e' = true := by
          rw [matchEdge_congr a b e.1 e.2.1 hsame e']
          exact hm
        rw [hp.1 e' he'] at this
        cases this
      rw [List.countP_cons_of_pos _ _ he, hz]
    · rw [List.countP_cons_of_neg]
      · exact ih hp.2
      · simp [he]

theorem countP_addEdge_self (g : WGraph) (a b : Coord) (w : ℚ)
    (hle : g.edges.countP (matchEdge a b) ≤ 1) :
    (addEdge g a b w).edges.countP (matchEdge a b) = 1 := by
  rw [addEdge]
  by_cases h : g.edges.any (matchEdge a b) = true
  · rw [if_pos h]
    show (g.edges.map _).countP _ = 1
    rw [List.countP_map]
    have heq : (matchEdge a b ∘ fun e => if matchEdge a b e then (e.1, e.2.1, w) else e) =
        matchEdge a b := by
      funext e
      exact matchEdge_upd a b a b w e
    rw [heq]
    have hpos : 0 < g.edges.countP (matchEdge a b) :=
      List.countP_pos_iff.mpr (List.any_eq_true.mp h)
    omega
  · rw [if_neg h]
    show (g.edges ++ [(a, b, w)]).countP _ = 1
    rw [List.countP_append]
    have hz : g.edges.countP (matchEdge a b) = 0 := by
      rw [List.countP_eq_zero]
      intro e he hm
      exact h (List.any_eq_true.mpr ⟨e, he, hm⟩)
    have hmatch : matchEdge a b ((a, b, w) : Coord × Coord × ℚ) = true := by
      simp [matchEdge, sameEnds]
    rw [hz, List.countP_cons_of_pos _ _ hmatch]
    rfl

/-! ### Lemmas about neighbour lists -/

theorem nbrSel_some {v x : Coord} {e : Coord × Coord × ℚ} (h : nbrSel v e = some x) :
    matchEdge v x e = true := by
  rw [nbrSel] at h
  split at h
  · rename_i h1
    cases h
    rw [matchEdge, sameEnds_iff]
    exact Or.inl ⟨h1, rfl⟩
  · split at h
    · rename_i h1 h2
      cases h
      rw [matchEdge, sameEnds_iff]
      exact Or.inr ⟨rfl, h2⟩
    · cases h

theorem nbrSel_none {v : Coord} {e : Coord × Coord × ℚ}
    (h1 : e.1 ≠ v) (h2 : e.2.1 ≠ v) : nbrSel v e = none := by
  rw [nbrSel, if_neg h1, if_neg h2]

theorem mem_nbrs {g : WGraph} {v x : Coord} (h : x ∈ nbrs g v) :
    ∃ e ∈ g.edges, matchEdge v x e = true := by
  rcases List.mem_filterMap.mp h with ⟨e, he, hsel⟩
  exact ⟨e, he, nbrSel_some hsel⟩

theorem nbrs_ne_self {g : WGraph} {v x : Coord} (hg : NoSelfLoop g)
    (h : x ∈ nbrs g v) : x ≠ v := by
  rcases mem_nbrs h with ⟨e, he, hm⟩
  rw [matchEdge, sameEnds_iff] at hm
  have hne := hg e he
  rcases hm with ⟨h1, h2⟩ | ⟨h1, h2⟩
  · rintro rfl
    exact hne (h1.trans h2.symm)
  · rintro rfl
    exact hne (h1.trans h2.symm)

theorem nbrs_removeNode_self (g : WGraph) (v : Coord) : nbrs (removeNode g v) v = [] := by
  rw [nbrs, List.filterMap_eq_nil_iff]
  intro e he
  rw [removeNode] at he
  simp only [List.mem_filter] at he
  have h2 : incidentB v e = false := by simpa using he.2
  rw [incidentB] at h2
  simp only [Bool.or_eq_false_iff, decide_eq_false_iff_not] at h2
  exact nbrSel_none h2.1 h2.2

theorem nbrs_addEdge_of_ne (g : WGraph) (a b v : Coord) (w : ℚ)
    (hva : v ≠ a) (hvb : v ≠ b) : nbrs (addEdge g a b w) v = nbrs g v := by
  rw [addEdge]
  by_cases h : g.edges.any (matchEdge a b) = true
  · rw [if_pos h]
    show (g.edges.map _).filterMap (nbrSel v) = _
    rw [List.filterMap_map]
    have heq : (nbrSel v ∘ fun e => if matchEdge a b e then (e.1, e.2.1, w) else e) =
        nbrSel v := by
      funext e
      show nbrSel v (if matchEdge a b e then (e.1, e.2.1, w) else e) = nbrSel v e
      split <;> rfl
    rw [heq]
    rfl
  · rw [if_neg h]
    show (g.edges ++ [(a, b, w)]).filterMap (nbrSel v) = _
    rw [List.filterMap_append]
    have hnew : nbrSel v ((a, b, w) : Coord × Coord × ℚ) = none :=
      nbrSel_none (Ne.symm hva) (Ne.symm hvb)
    simp [hnew]
    rfl

theorem removeNode_not_incident (g : WGraph) (v : Coord) :
    ∀ e ∈ (removeNode g v).edges, incidentB v e = false := by
  intro e he
  rw [removeNode] at he
  simp only [List.mem_filter] at he
  simpa using he.2

theorem not_incident_addEdge {g : WGraph} {v a b : Coord} {w : ℚ}
    (hg : ∀ e ∈ g.edges, incidentB v e = false) (hva : v ≠ a) (hvb : v ≠ b) :
    ∀ e ∈ (addEdge g a b w).edges, incidentB v e = false := by
  rw [addEdge]
  split
  · intro e he
    show incidentB v e = false
    rcases List.mem_map.mp he with ⟨e0, he0, rfl⟩
    have : incidentB v (if matchEdge a b e0 then (e0.1, e0.2.1, w) else e0) =
        incidentB v e0 := by
      split <;> rfl
    rw [this]
    exact hg e0 he0
  · intro e he
    show incidentB v e = false
    rcases List.mem_append.mp he with h0 | h0
    · exact hg e h0
    · rcases List.mem_singleton.mp h0 with rfl
      rw [incidentB]
      simp [Ne.symm hva, Ne.symm hvb]

theorem removeNode_nodes_not_mem (g : WGraph) (v : Coord) :
    v ∉ (removeNode g v).nodes := by
  rw [removeNode]
  simp [List.mem_filter]

/-! ### Preservation of the representation invariants -/

theorem dupFree_addEdge {g : WGraph} (h : DupFree g) (a b : Coord) (w : ℚ) :
    DupFree (addEdge g a b w) := by
  rw [DupFree] at h ⊢
  rw [addEdge]
  by_cases hany : g.edges.any (matchEdge a b) = true
  · rw [if_pos hany]
    show ((g.edges.map _)).Pairwise _
    refine List.pairwise_map.mpr (h.imp ?_)
    intro e1 e2 hr
    have h1 := (upd_ends a b w e1).1
    have h2 := (upd_ends a b w e1).2
    rw [h1, h2, matchEdge_upd a b e1.1 e1.2.1 w e2]
    exact hr
  · rw [if_neg hany]
    show ((g.edges ++ [(a, b, w)])).Pairwise _
    rw [List.pairwise_append]
    refine ⟨h, List.pairwise_singleton _ _, ?_⟩
    intro e1 h1 e2 h2
    rcases List.mem_singleton.mp h2 with rfl
    show matchEdge e1.1 e1.2.1 ((a, b, w) : Coord × Coord × ℚ) = false
    rw [matchEdge_ends]
    show sameEnds e1.1 e1.2.1 a b = false
    rw [sameEnds_comm]
    by_cases hm : matchEdge a b e1 = true
    · exact absurd (List.any_eq_true.mpr ⟨e1, h1, hm⟩) hany
    · rw [matchEdge_ends] at hm
      simpa using hm

theorem dupFree_removeEdge {g : WGraph} (h : DupFree g) (a b : Coord) :
    DupFree (removeEdge g a b) :=
  List.Pairwise.sublist (List.filter_sublist _) h

theorem dupFree_removeNode {g : WGraph} (h : DupFree g) (v : Coord) :
    DupFree (removeNode g v) :=
  List.Pairwise.sublist (List.filter_sublist _) h

theorem noSelfLoop_addEdge {g : WGraph} (h : NoSelfLoop g) {a b : Coord} (w : ℚ)
    (hab : a ≠ b) : NoSelfLoop (addEdge g a b w) := by
  rw [addEdge]
  split
  · intro e he
    rcases List.mem_map.mp he with ⟨e0, he0, rfl⟩
    have h1 := (upd_ends a b w e0).1
    have h2 := (upd_ends a b w e0).2
    rw [h1, h2]
    exact h e0 he0
  · intro e he
    rcases List.mem_append.mp he with h0 | h0
    · exact h e h0
    · rcases List.mem_singleton.mp h0 with rfl
      exact hab

theorem noSelfLoop_removeEdge {g : WGraph} (h : NoSelfLoop g) (a b : Coord) :
    NoSelfLoop (removeEdge g a b) := by
  intro e he
  rw [removeEdge] at he
  exact h e (List.mem_filter.mp he).1

theorem noSelfLoop_removeNode {g : WGraph} (h : NoSelfLoop g) (v : Coord) :
    NoSelfLoop (removeNode g v) := by
  intro e he
  rw [removeNode] at he
  exact h e (List.mem_filter.mp he).1

theorem edgesClosed_addEdge {g : WGraph} (h : EdgesClosed g) (a b : Coord) (w : ℚ) :
    EdgesClosed (addEdge g a b w) := by
  intro e he
  have hmem : ∀ x, x ∈ g.nodes ∨ x = a ∨ x = b → x ∈ (addEdge g a b w).nodes :=
    fun x hx => (mem_addEdge_nodes g a b w x).mpr hx
  by_cases hany : g.edges.any (matchEdge a b) = true
  · rw [addEdge, if_pos hany] at he
    rcases List.mem_map.mp he with ⟨e0, he0, rfl⟩
    have h1 := (upd_ends a b w e0).1
    have h2 := (upd_ends a b w e0).2
    constructor
    · rw [h1]
      exact hmem _ (Or.inl (h e0 he0).1)
    · rw [h2]
      exact hmem _ (Or.inl (h e0 he0).2)
  · rw [addEdge, if_neg hany] at he
    rcases List.mem_append.mp he with h0 | h0
    · exact ⟨hmem _ (Or.inl (h e h0).1), hmem _ (Or.inl (h e h0).2)⟩
    · rcases List.mem_singleton.mp h0 with rfl
      exact ⟨hmem _ (Or.inr (Or.inl rfl)), hmem _ (Or.inr (Or.inr rfl))⟩

theorem weightsAre_addEdge {d : Coord → Coord → ℚ} {g : WGraph} (h : WeightsAre d g)
    (hsym : ∀ x y, d x y = d y x) (a b : Coord) :
    WeightsAre d (addEdge g a b (d a b)) := by
  intro e he
  by_cases hany : g.edges.any (matchEdge a b) = true
  · rw [addEdge, if_pos hany] at he
    rcases List.mem_map.mp he with ⟨e0, he0, rfl⟩
    by_cases hm : matchEdge a b e0 = true
    · rw [if_pos hm]
      show d a b = d e0.1 e0.2.1
      rw [matchEdge, sameEnds_iff] at hm
      rcases hm with ⟨rfl, rfl⟩ | ⟨rfl, rfl⟩
      · rfl
      · exact hsym _ _
    · rw [if_neg hm]
      exact h e0 he0
  · rw [addEdge, if_neg hany] at he
    rcases List.mem_append.mp he with h0 | h0
    · exact h e h0
    · rcases List.mem_singleton.mp h0 with rfl
      rfl

/-! ### Invariants and characterization of `make_graph` -/

theorem make_graph_invariants (d : Coord → Coord → ℚ) (hsym : ∀ x y, d x y = d y x)
    (segs : List (Coord × Coord)) :
    DupFree (make_graph d segs) ∧ EdgesClosed (make_graph d segs) ∧
      WeightsAre d (make_graph d segs) := by
  suffices h : ∀ (l : List (Coord × Coord)) (g : WGraph),
      DupFree g → EdgesClosed g → WeightsAre d g →
      DupFree (l.foldl (fun g s => addEdge g s.1 s.2 (d s.1 s.2)) g) ∧
        EdgesClosed (l.foldl (fun g s => addEdge g s.1 s.2 (d s.1 s.2)) g) ∧
        WeightsAre d (l.foldl (fun g s => addEdge g s.1 s.2 (d s.1 s.2)) g) by
    refine h segs ⟨[], []⟩ List.Pairwise.nil ?_ ?_
    · intro e he
      simp at he
    · intro e he
      simp at he
  intro l
  induction l with
  | nil =>
    intro g h1 h2 h3
    exact ⟨h1, h2, h3⟩
  | cons s l ih =>
    intro g h1 h2 h3
    rw [List.foldl_cons]
    exact ih _ (dupFree_addEdge h1 _ _ _) (edgesClosed_addEdge h2 _ _ _)
      (weightsAre_addEdge h3 hsym _ _)

theorem make_graph_noSelfLoop (d : Coord → Coord → ℚ) (segs : List (Coord × Coord))
    (hs : ∀ s ∈ segs, s.1 ≠ s.2) : NoSelfLoop (make_graph d segs) := by
  suffices h : ∀ (l : List (Coord × Coord)) (g : WGraph), (∀ s ∈ l, s.1 ≠ s.2) →
      NoSelfLoop g → NoSelfLoop (l.foldl (fun g s => addEdge g s.1 s.2 (d s.1 s.2)) g) by
    refine h segs ⟨[], []⟩ hs ?_
    intro e he
    simp at he
  intro l
  induction l with
  | nil =>
    intro g _ hg
    exact hg
  | cons s l ih =>
    intro g hl hg
    rw [List.foldl_cons]
    exact ih _ (fun x hx => hl x (List.mem_cons_of_mem s hx))
      (noSelfLoop_addEdge hg _ (hl s (List.mem_cons_self s l)))

theorem edgeWeight_foldl (d : Coord → Coord → ℚ) (hsym : ∀ x y, d x y = d y x) :
    ∀ (l : List (Coord × Coord)) (g : WGraph) (x y : Coord),
      edgeWeight (l.foldl (fun g s => addEdge g s.1 s.2 (d s.1 s.2)) g) x y =
        if l.any (fun s => sameEnds x y s.1 s.2) then some (d x y)
        else edgeWeight g x y := by
  intro l
  induction l with
  | nil =>
    intro g x y
    simp
  | cons s l ih =>
    intro g x y
    rw [List.foldl_cons, ih]
    by_cases hm : sameEnds x y s.1 s.2 = true
    · have hcons : ((s :: l).any fun s => sameEnds x y s.1 s.2) = true := by
        rw [List.any_cons, hm, Bool.true_or]
      by_cases hl : l.any (fun s => sameEnds x y s.1 s.2) = true
      · rw [if_pos hl, if_pos hcons]
      · have key : edgeWeight (addEdge g s.1 s.2 (d s.1 s.2)) x y = some (d x y) := by
          have hfun : matchEdge x y = matchEdge s.1 s.2 :=
            funext (matchEdge_congr s.1 s.2 x y (by rw [sameEnds_comm]; exact hm))
          rw [edgeWeight, hfun, ← edgeWeight, edgeWeight_addEdge_self]
          rcases (sameEnds_iff x y s.1 s.2).mp hm with ⟨h1, h2⟩ | ⟨h1, h2⟩
          · rw [h1, h2]
          · rw [h1, h2, hsym y x]
        rw [if_neg hl, if_pos hcons, key]
    · have hm' : sameEnds x y s.1 s.2 = false := by simpa using hm
      have hframe : edgeWeight (addEdge g s.1 s.2 (d s.1 s.2)) x y = edgeWeight g x y := by
        apply edgeWeight_addEdge_frame
        rw [sameEnds_comm]
        exact hm'
      rw [hframe, List.any_cons, hm', Bool.false_or]

theorem addEdge_existing {d : Coord → Coord → ℚ} {g : WGraph}
    (hsym : ∀ x y, d x y = d y x) (hec : EdgesClosed g) (hw : WeightsAre d g)
    (a b : Coord) (h : hasEdgeB g a b = true) :
    addEdge g a b (d a b) = g := by
  rw [hasEdgeB] at h
  have hab : a ∈ g.nodes ∧ b ∈ g.nodes := by
    rcases List.any_eq_true.mp h with ⟨e, he, hm⟩
    rw [matchEdge, sameEnds_iff] at hm
    rcases hm with ⟨h1, h2⟩ | ⟨h1, h2⟩
    · exact ⟨by rw [← h1]; exact (hec e he).1, by rw [← h2]; exact (hec e he).2⟩
    · exact ⟨by rw [← h2]; exact (hec e he).2, by rw [← h1]; exact (hec e he).1⟩
  rw [addEdge, if_pos h]
  have hn : (addNode (addNode g a) b).nodes = g.nodes := by
    rw [addNode_of_mem hab.1, addNode_of_mem hab.2]
  have hmap : g.edges.map (fun e => if matchEdge a b e then (e.1, e.2.1, d a b) else e) =
      g.edges := by
    have hpt : ∀ e ∈ g.edges,
        (if matchEdge a b e then (e.1, e.2.1, d a b) else e) = id e := by
      intro e he
      by_cases hm : matchEdge a b e = true
      · rw [if_pos hm]
        have hw' := hw e he
        have hd : d a b = d e.1 e.2.1 := by
          rw [matchEdge, sameEnds_iff] at hm
          rcases hm with ⟨h1, h2⟩ | ⟨h1, h2⟩
          · rw [h1, h2]
          · rw [h1, h2, hsym]
        show ((e.1, e.2.1, d a b) : Coord × Coord × ℚ) = e
        rw [hd, ← hw']
      · rw [if_neg hm]
        rfl
    rw [List.map_congr_left hpt, List.map_id]
  rw [hn, hmap]

/-- C5 counterexample: a degenerate segment with equal endpoints produces a
networkx self-loop, so the graph built from the segment list `[(P, P)]` is
not self-loop free.  (`dZero` returns 0, the haversine distance of a point
to itself.) -/
def pS : Coord := (41, 2)

def dZero : Coord → Coord → ℚ := fun _ _ => 0

theorem C5_counterexample :
    hasEdgeB (make_graph dZero [(pS, pS)]) pS pS = true ∧
      ¬ NoSelfLoop (make_graph dZero [(pS, pS)]) := by
  have hg : make_graph dZero [(pS, pS)] = ⟨[pS], [(pS, pS, 0)]⟩ := by
    norm_num [make_graph, addEdge, addNode, matchEdge, sameEnds, dZero, pS]
  constructor
  · rw [hg, hasEdgeB]
    simp [matchEdge, sameEnds]
  · rw [hg]
    intro h
    exact (h (pS, pS, 0) (by simp)) rfl

/-- C5 amended: for every segment list, the built graph has no duplicate
edges (each unordered pair carried by some segment is stored as exactly one
edge record), its edge set depends only on the set of unordered endpoint
pairs, with the weight recomputed as the symmetric distance of the
endpoints (so `(A,B)` and `(B,A)` yield one edge of the same weight), and
re-inserting an already-present pair leaves the graph unchanged; the
original claim's "no self-loops" holds only under the proviso that no
segment has equal endpoints, since a degenerate segment `(P, P)` produces a
networkx self-loop. -/
theorem C5_amended_make_graph (d : Coord → Coord → ℚ) (segs : List (Coord × Coord))
    (hsym : ∀ x y, d x y = d y x) :
    DupFree (make_graph d segs) ∧
    (∀ x y, edgeWeight (make_graph d segs) x y =
        if segs.any (fun s => sameEnds x y s.1 s.2) then some (d x y) else none) ∧
    (∀ a b, hasEdgeB (make_graph d segs) a b = true →
        (make_graph d segs).edges.countP (matchEdge a b) = 1) ∧
    ((∀ s ∈ segs, s.1 ≠ s.2) → NoSelfLoop (make_graph d segs)) ∧
    (∀ a b, hasEdgeB (make_graph d segs) a b = true →
        addEdge (make_graph d segs) a b (d a b) = make_graph d segs) := by
  obtain ⟨hdf, hec, hw⟩ := make_graph_invariants d hsym segs
  refine ⟨hdf, ?_, ?_, make_graph_noSelfLoop d segs, ?_⟩
  · intro x y
    rw [make_graph, edgeWeight_foldl d hsym segs ⟨[], []⟩ x y]
    have hnone : edgeWeight (⟨[], []⟩ : WGraph) x y = none := rfl
    rw [hnone]
  · intro a b h
    have hle := countP_matchEdge_le_one a b (make_graph d segs).edges hdf
    have hpos : 0 < (make_graph d segs).edges.countP (matchEdge a b) :=
      List.countP_pos_iff.mpr (List.any_eq_true.mp h)
    omega
  · intro a b h
    exact addEdge_existing hsym hec hw a b h

/-- Distance along a parallel: about 84 km per degree of longitude at
latitude 41°, a faithful stand-in for haversine between points that share
their latitude. -/
def dLon : Coord → Coord → ℚ := fun p q => 84 * |p.2 - q.2|

theorem dLon_symm : ∀ x y : Coord, dLon x y = dLon y x := by
  intro x y
  rw [dLon, dLon, abs_sub_comm]

def segsW5 : List (Coord × Coord) := [((41, 2), (41, 3)), ((41, 3), (41, 2))]

theorem C5_amended_make_graph_witness :
    (∀ x y : Coord, dLon x y = dLon y x) ∧
      edgeWeight (make_graph dLon segsW5) (41, 2) (41, 3) =
        some (dLon (41, 2) (41, 3)) ∧
      (make_graph dLon segsW5).edges.countP (matchEdge (41, 2) (41, 3)) = 1 := by
  refine ⟨dLon_symm, ?_, ?_⟩
  · rw [(C5_amended_make_graph dLon segsW5 dLon_symm).2.1 (41, 2) (41, 3)]
    norm_num [segsW5, sameEnds, Prod.ext_iff]
  · apply (C5_amended_make_graph dLon segsW5 dLon_symm).2.2.1
    norm_num [hasEdgeB, make_graph, addEdge, addNode, matchEdge, sameEnds, segsW5,
      dLon, Prod.ext_iff]

/-! ## Claim C2: one simplification step -/

/-- C2: a snapshot node `v` whose current neighbours are `g1` and `g3` is
deleted by the simplification step — together with its two incident edges —
iff the angle at `v` deviates from 180° by strictly less than `epsilon`; in
that case exactly one direct edge `g1`–`g3` remains, and its weight is the
great-circle distance `d g1 g3` of the two neighbours (not the sum of the
removed edge weights); otherwise the graph is left untouched. -/
theorem C2_collinear_removal (d : Coord → Coord → ℚ) (acosDeg : ℚ → ℚ) (epsilon : ℚ)
    (g : WGraph) (v g1 g3 : Coord)
    (hn : nbrs g v = [g1, g3]) (hv : v ∈ g.nodes)
    (hvg1 : v ≠ g1) (hvg3 : v ≠ g3) (hdf : DupFree g) :
    (¬ |180 - angle_of d acosDeg g1 v g3| < epsilon →
      simpStep d acosDeg epsilon g v = g) ∧
    (|180 - angle_of d acosDeg g1 v g3| < epsilon →
      v ∉ (simpStep d acosDeg epsilon g v).nodes ∧
      edgeWeight (simpStep d acosDeg epsilon g v) g1 g3 = some (d g1 g3) ∧
      (simpStep d acosDeg epsilon g v).edges.countP (matchEdge g1 g3) = 1 ∧
      (∀ e ∈ (simpStep d acosDeg epsilon g v).edges, incidentB v e = false)) ∧
    (v ∉ (simpStep d acosDeg epsilon g v).nodes ↔
      |180 - angle_of d acosDeg g1 v g3| < epsilon) := by
  have hT : simpStep d acosDeg epsilon g v =
      if |180 - angle_of d acosDeg g1 v g3| < epsilon then
        addEdge (removeNode (removeEdge (removeEdge g g1 v) v g3) v) g1 g3 (d g1 g3)
      else g := by
    simp only [simpStep, hn]
  have hfalse : ¬ |180 - angle_of d acosDeg g1 v g3| < epsilon →
      simpStep d acosDeg epsilon g v = g := by
    intro hc
    rw [hT, if_neg hc]
  have htrue : |180 - angle_of d acosDeg g1 v g3| < epsilon →
      v ∉ (simpStep d acosDeg epsilon g v).nodes ∧
      edgeWeight (simpStep d acosDeg epsilon g v) g1 g3 = some (d g1 g3) ∧
      (simpStep d acosDeg epsilon g v).edges.countP (matchEdge g1 g3) = 1 ∧
      (∀ e ∈ (simpStep d acosDeg epsilon g v).edges, incidentB v e = false) := by
    intro hc
    rw [hT, if_pos hc]
    have hbase_dup : DupFree (removeNode (removeEdge (removeEdge g g1 v) v g3) v) :=
      dupFree_removeNode (dupFree_removeEdge (dupFree_removeEdge hdf g1 v) v g3) v
    have hbase_inc :
        ∀ e ∈ (removeNode (removeEdge (removeEdge g g1 v) v g3) v).edges,
          incidentB v e = false :=
      removeNode_not_incident _ v
    refine ⟨?_, edgeWeight_addEdge_self _ _ _ _, ?_, ?_⟩
    · rw [mem_addEdge_nodes]
      rintro (hin | h1 | h3)
      · exact removeNode_nodes_not_mem _ v hin
      · exact hvg1 h1
      · exact hvg3 h3
    · exact countP_addEdge_self _ g1 g3 _ (countP_matchEdge_le_one g1 g3 _ hbase_dup)
    · exact not_incident_addEdge hbase_inc hvg1 hvg3
  refine ⟨hfalse, htrue, ?_⟩
  constructor
  · intro hout
    by_contra hc
    rw [hfalse hc] at hout
    exact hout hv
  · intro hc
    exact (htrue hc).1

/-- Concrete inputs for the C2 witness: three exactly collinear points one
hundredth of a degree of longitude apart at latitude 41°, so the middle one
is removed with tolerance 5°.  `acosDegW` agrees with `degrees(acos(·))` at
the only cosine value that occurs, namely `-1 ↦ 180°`. -/
def acosDegW : ℚ → ℚ := fun x => if x = -1 then 180 else 90

def segsC2 : List (Coord × Coord) :=
  [((41, 2), (41, 201/100)), ((41, 201/100), (41, 202/100))]

def gC2 : WGraph := make_graph dLon segsC2

def vC2 : Coord := (41, 201/100)

theorem C2_collinear_removal_witness :
    nbrs gC2 vC2 = [(41, 2), (41, 202/100)] ∧
      |180 - angle_of dLon acosDegW (41, 2) vC2 (41, 202/100)| < 5 ∧
      vC2 ∉ (simpStep dLon acosDegW 5 gC2 vC2).nodes ∧
      edgeWeight (simpStep dLon acosDegW 5 gC2 vC2) (41, 2) (41, 202/100) =
        some (dLon (41, 2) (41, 202/100)) := by
  have hg : gC2 = ⟨[(41, 2), (41, 201/100), (41, 202/100)],
      [((41, 2), (41, 201/100), 84/100), ((41, 201/100), (41, 202/100), 84/100)]⟩ := by
    norm_num [gC2, segsC2, make_graph, addEdge, addNode, matchEdge, sameEnds, dLon,
      Prod.ext_iff, abs_of_nonpos, abs_of_nonneg]
  have hn : nbrs gC2 vC2 = [(41, 2), (41, 202/100)] := by
    rw [hg]
    norm_num [nbrs, nbrSel, vC2, Prod.ext_iff, List.filterMap]
  have hv : vC2 ∈ gC2.nodes := by
    rw [hg]
    norm_num [vC2, Prod.ext_iff]
  have hvg1 : vC2 ≠ ((41 : ℚ), (2 : ℚ)) := by
    norm_num [vC2, Prod.ext_iff]
  have hvg3 : vC2 ≠ ((41 : ℚ), (202/100 : ℚ)) := by
    norm_num [vC2, Prod.ext_iff]
  have hdf : DupFree gC2 := (make_graph_invariants dLon dLon_symm segsC2).1
  have hc : |180 - angle_of dLon acosDegW (41, 2) vC2 (41, 202/100)| < 5 := by
    norm_num [angle_of, cosArgQ, acosDegW, dLon, vC2, min_def, max_def,
      abs_of_nonpos, abs_of_nonneg]
  have hmain := C2_collinear_removal dLon acosDegW 5 gC2 vC2 (41, 2) (41, 202/100)
    hn hv hvg1 hvg3 hdf
  exact ⟨hn, hc, (hmain.2.1 hc).1, (hmain.2.1 hc).2.1⟩

/-! ## Claim C3: nearest-node lookup -/

theorem scanClosest_spec (d : Coord → Coord → ℚ) (t : Coord) :
    ∀ (ns : List Coord) (c0 : Coord) (m0 : ℚ),
      ∃ c m, scanClosest d t ns (some (c0, m0)) = some (c, m) ∧
        ((c = c0 ∧ m = m0 ∧ ∀ x ∈ ns, m0 ≤ d t x) ∨
          (∃ l1 l2, ns = l1 ++ c :: l2 ∧ m = d t c ∧ m < m0 ∧
            (∀ y ∈ l1, m < d t y) ∧ (∀ x ∈ ns, m ≤ d t x))) := by
  intro ns
  induction ns with
  | nil =>
    intro c0 m0
    exact ⟨c0, m0, rfl, Or.inl ⟨rfl, rfl, by simp⟩⟩
  | cons n ns ih =>
    intro c0 m0
    have hstep : scanClosest d t (n :: ns) (some (c0, m0)) =
        if d t n < m0 then scanClosest d t ns (some (n, d t n))
        else scanClosest d t ns (some (c0, m0)) := rfl
    by_cases h : d t n < m0
    · rcases ih n (d t n) with ⟨c, m, heq, hcase⟩
      refine ⟨c, m, by rw [hstep, if_pos h, heq], Or.inr ?_⟩
      rcases hcase with ⟨rfl, rfl, hall⟩ | ⟨l1, l2, hsplit, hm, hlt, hbefore, hall⟩
      · refine ⟨[], ns, by simp, rfl, h, by simp, ?_⟩
        intro x hx
        rcases List.mem_cons.mp hx with rfl | hx
        · exact le_refl _
        · exact hall x hx
      · refine ⟨n :: l1, l2, by rw [hsplit]; rfl, hm, lt_trans hlt h, ?_, ?_⟩
        · intro y hy
          rcases List.mem_cons.mp hy with rfl | hy
          · exact hlt
          · exact hbefore y hy
        · intro x hx
          rcases List.mem_cons.mp hx with rfl | hx
          · exact le_of_lt hlt
          · exact hall x hx
    · rcases ih c0 m0 with ⟨c, m, heq, hcase⟩
      refine ⟨c, m, by rw [hstep, if_neg h, heq], ?_⟩
      rcases hcase with ⟨rfl, rfl, hall⟩ | ⟨l1, l2, hsplit, hm, hlt, hbefore, hall⟩
      · refine Or.inl ⟨rfl, rfl, ?_⟩
        intro x hx
        rcases List.mem_cons.mp hx with rfl | hx
        · exact not_lt.mp h
        · exact hall x hx
      · refine Or.inr ⟨n :: l1, l2, by rw [hsplit]; rfl, hm, hlt, ?_, ?_⟩
        · intro y hy
          rcases List.mem_cons.mp hy with rfl | hy
          · exact lt_of_lt_of_le hlt (not_lt.mp h)
          · exact hbefore y hy
        · intro x hx
          rcases List.mem_cons.mp hx with rfl | hx
          · exact le_of_lt (lt_of_lt_of_le hlt (not_lt.mp h))
          · exact hall x hx

/-- C3: the nearest-node lookup of `find_closest_node` returns `none` on an
empty graph, and on a nonempty graph returns a node of minimal distance to
the target, breaking ties in favour of the first node of the scan: every
node strictly earlier in the node list is strictly farther.  (The embedded
scan is total, so the lookup never raises.) -/
theorem C3_find_closest_node (d : Coord → Coord → ℚ) (g : WGraph) (target : Coord) :
    (g.nodes = [] → find_closest_node d g target = none) ∧
    (g.nodes ≠ [] → ∃ l1 c l2, g.nodes = l1 ++ c :: l2 ∧
      find_closest_node d g target = some c ∧
      (∀ x ∈ g.nodes, d target c ≤ d target x) ∧
      (∀ y ∈ l1, d target c < d target y)) := by
  constructor
  · intro h
    rw [find_closest_node, h]
    rfl
  · intro h
    cases hns : g.nodes with
    | nil => exact absurd hns h
    | cons n ns =>
      have hstep : scanClosest d target (n :: ns) none =
          scanClosest d target ns (some (n, d target n)) := rfl
      rcases scanClosest_spec d target ns n (d target n) with ⟨c, m, heq, hcase⟩
      rcases hcase with ⟨rfl, rfl, hall⟩ | ⟨l1, l2, hsplit, hm, hlt, hbefore, hall⟩
      · refine ⟨[], c, ns, rfl, ?_, ?_, by simp⟩
        · rw [find_closest_node, hns, hstep, heq]
          rfl
        · intro x hx
          rcases List.mem_cons.mp hx with rfl | hx
          · exact le_refl _
          · exact hall x hx
      · refine ⟨n :: l1, c, l2, by rw [hsplit, List.cons_append], ?_, ?_, ?_⟩
        · rw [find_closest_node, hns, hstep, heq]
          rfl
        · intro x hx
          rw [← hm]
          rcases List.mem_cons.mp hx with rfl | hx
          · exact le_of_lt hlt
          · exact hall x hx
        · intro y hy
          rw [← hm]
          rcases List.mem_cons.mp hy with rfl | hy
          · exact hlt
          · exact hbefore y hy

/-- Scenario 4 of the spec: two candidate nodes at distances 2 km and 0.5 km
from the target; the lookup picks the 0.5 km node. -/
def gC3 : WGraph := ⟨[(41, 3 + 1/42), (41, 3 - 1/168)], []⟩

theorem C3_find_closest_node_witness :
    gC3.nodes ≠ [] ∧
      find_closest_node dLon gC3 (41, 3) = some ((41 : ℚ), (3 - 1/168 : ℚ)) ∧
      (∃ l1 c l2, gC3.nodes = l1 ++ c :: l2 ∧
        find_closest_node dLon gC3 (41, 3) = some c ∧
        (∀ x ∈ gC3.nodes, dLon (41, 3) c ≤ dLon (41, 3) x) ∧
        (∀ y ∈ l1, dLon (41, 3) c < dLon (41, 3) y)) := by
  refine ⟨by simp [gC3], ?_,
    (C3_find_closest_node dLon gC3 (41, 3)).2 (by simp [gC3])⟩
  norm_num [find_closest_node, gC3, scanClosest, dLon, abs_of_nonpos, abs_of_nonneg]

/-! ## Claim C9: POI augmentation -/

theorem scanClosest_none_props {d : Coord → Coord → ℚ} {t : Coord}
    {nodes : List Coord} {c : Coord} {m : ℚ}
    (h : scanClosest d t nodes none = some (c, m)) :
    c ∈ nodes ∧ m = d t c ∧ ∀ x ∈ nodes, m ≤ d t x := by
  cases nodes with
  | nil => cases h
  | cons n ns =>
    have hstep : scanClosest d t (n :: ns) none =
        scanClosest d t ns (some (n, d t n)) := rfl
    rw [hstep] at h
    rcases scanClosest_spec d t ns n (d t n) with ⟨c', m', heq, hcase⟩
    rw [heq] at h
    obtain ⟨rfl, rfl⟩ : c' = c ∧ m' = m := by
      have := Option.some_inj.mp h
      exact ⟨congrArg Prod.fst this, congrArg Prod.snd this⟩
    rcases hcase with ⟨rfl, rfl, hall⟩ | ⟨l1, l2, hsplit, hm, hlt, hbefore, hall⟩
    · refine ⟨List.mem_cons_self _ _, rfl, ?_⟩
      intro x hx
      rcases List.mem_cons.mp hx with rfl | hx
      · exact le_refl _
      · exact hall x hx
    · refine ⟨?_, hm, ?_⟩
      · rw [hsplit]
        exact List.mem_cons_of_mem n (by simp)
      · intro x hx
        rcases List.mem_cons.mp hx with rfl | hx
        · exact le_of_lt hlt
        · exact hall x hx

/-- C9: for a POI location that is not already a graph node, the
augmentation step adds exactly one new edge — from the POI to its nearest
node, weighted by the scan's minimal distance — when that distance is
strictly below the 10 km connect threshold, leaving every existing node,
edge and weight untouched; otherwise (nearest node at 10 km or farther) the
graph is left completely unchanged. -/
theorem C9_poi_augmentation (d : Coord → Coord → ℚ) (g : WGraph) (loc : Coord)
    (c : Coord) (m : ℚ) (hec : EdgesClosed g) (hloc : loc ∉ g.nodes)
    (hscan : scanClosest d loc g.nodes none = some (c, m)) :
    (m < 10 →
      (connectMonument d g loc).nodes = g.nodes ++ [loc] ∧
      (connectMonument d g loc).edges = g.edges ++ [(loc, c, m)] ∧
      m = d loc c ∧ c ∈ g.nodes ∧ (∀ x ∈ g.nodes, d loc c ≤ d loc x)) ∧
    (¬ m < 10 → connectMonument d g loc = g) := by
  obtain ⟨hcmem, hmd, hmin⟩ := scanClosest_none_props hscan
  have hC : connectMonument d g loc = if m < 10 then addEdge g loc c m else g := by
    rw [connectMonument, hscan]
  constructor
  · intro h10
    rw [hC, if_pos h10]
    have hnoedge : ¬ g.edges.any (matchEdge loc c) = true := by
      intro hany
      rcases List.any_eq_true.mp hany with ⟨e, he, hm2⟩
      rw [matchEdge, sameEnds_iff] at hm2
      rcases hm2 with ⟨h1, h2⟩ | ⟨h1, h2⟩
      · exact hloc (by rw [← h1]; exact (hec e he).1)
      · exact hloc (by rw [← h2]; exact (hec e he).2)
    have h1 : addNode g loc = ⟨g.nodes ++ [loc], g.edges⟩ := by
      rw [addNode, if_neg hloc]
    have h2 : addNode (⟨g.nodes ++ [loc], g.edges⟩ : WGraph) c =
        ⟨g.nodes ++ [loc], g.edges⟩ :=
      addNode_of_mem (List.mem_append.mpr (Or.inl hcmem))
    refine ⟨?_, ?_, hmd, hcmem, fun x hx => by rw [← hmd]; exact hmin x hx⟩
    · rw [addEdge_nodes, h1, h2]
    · rw [addEdge, if_neg hnoedge]
  · intro h10
    rw [hC, if_neg h10]

def gC9 : WGraph := make_graph dLon [((41, 2), (41, 19/10))]

def locC9 : Coord := (41, 21/10)

theorem C9_poi_augmentation_witness :
    locC9 ∉ gC9.nodes ∧
      scanClosest dLon locC9 gC9.nodes none = some (((41 : ℚ), (2 : ℚ)), 42/5) ∧
      (42/5 : ℚ) < 10 ∧
      (connectMonument dLon gC9 locC9).edges =
        gC9.edges ++ [(locC9, ((41 : ℚ), (2 : ℚ)), 42/5)] := by
  have hec : EdgesClosed gC9 :=
    (make_graph_invariants dLon dLon_symm [((41, 2), (41, 19/10))]).2.1
  have hg : gC9 = ⟨[(41, 2), (41, 19/10)], [((41, 2), (41, 19/10), 84/10)]⟩ := by
    norm_num [gC9, make_graph, addEdge, addNode, matchEdge, sameEnds, dLon,
      Prod.ext_iff, abs_of_nonpos, abs_of_nonneg]
  have hloc : locC9 ∉ gC9.nodes := by
    rw [hg]
    norm_num [locC9, Prod.ext_iff]
  have hscan : scanClosest dLon locC9 gC9.nodes none =
      some (((41 : ℚ), (2 : ℚ)), 42/5) := by
    rw [hg]
    norm_num [scanClosest, locC9, dLon, abs_of_nonpos, abs_of_nonneg]
  refine ⟨hloc, hscan, by norm_num, ?_⟩
  exact ((C9_poi_augmentation dLon gC9 locC9 (41, 2) (42/5) hec hloc hscan).1
    (by norm_num)).2.1

/-! ## Claim C8: the single simplification sweep -/

theorem filterMap_nbrSel_pair_ne (v : Coord) :
    ∀ l : List (Coord × Coord × ℚ),
      l.Pairwise (fun e1 e2 => matchEdge e1.1 e1.2.1 e2 = false) →
      ∀ {a b : Coord}, l.filterMap (nbrSel v) = [a, b] → a ≠ b := by
  intro l
  induction l with
  | nil =>
    intro _ a b h
    simp at h
  | cons e l ih =>
    intro hp a b hfm
    rw [List.pairwise_cons] at hp
    rw [List.filterMap_cons] at hfm
    cases hsel : nbrSel v e with
    | none =>
      rw [hsel] at hfm
      exact ih hp.2 hfm
    | some z =>
      rw [hsel] at hfm
      injection hfm with h1 h2
      subst h1
      rintro rfl
      have hmem : z ∈ l.filterMap (nbrSel v) := by
        rw [h2]
        exact List.mem_singleton.mpr rfl
      rcases List.mem_filterMap.mp hmem with ⟨e', he', hsel'⟩
      have hm1 : matchEdge v z e = true := nbrSel_some hsel
      have hm2 : matchEdge v z e' = true := nbrSel_some hsel'
      have hsame : sameEnds v z e.1 e.2.1 = true := by
        rw [← matchEdge_ends]
        exact hm1
      have hcontra : matchEdge e.1 e.2.1 e' = true := by
        rw [matchEdge_congr v z e.1 e.2.1 hsame e']
        exact hm2
      rw [hp.1 e' he'] at hcontra
      cases hcontra

theorem simpStep_cases (d : Coord → Coord → ℚ) (acosDeg : ℚ → ℚ) (epsilon : ℚ)
    (g : WGraph) (v : Coord) :
    simpStep d acosDeg epsilon g v = g ∨
    ∃ g1 g3, nbrs g v = [g1, g3] ∧
      |180 - angle_of d acosDeg g1 v g3| < epsilon ∧
      simpStep d acosDeg epsilon g v =
        addEdge (removeNode (removeEdge (removeEdge g g1 v) v g3) v) g1 g3 (d g1 g3) := by
  cases hnb : nbrs g v with
  | nil =>
    left
    simp only [simpStep, hnb]
  | cons g1 rest =>
    cases rest with
    | nil =>
      left
      simp only [simpStep, hnb]
    | cons g3 rest2 =>
      cases rest2 with
      | nil =>
        by_cases hc : |180 - angle_of d acosDeg g1 v g3| < epsilon
        · right
          refine ⟨g1, g3, rfl, hc, ?_⟩
          simp only [simpStep, hnb]
          rw [if_pos hc]
        · left
          simp only [simpStep, hnb]
          rw [if_neg hc]
      | cons x rest3 =>
        left
        simp only [simpStep, hnb]

theorem simpStep_inv {d : Coord → Coord → ℚ} {acosDeg : ℚ → ℚ} {epsilon : ℚ}
    {g : WGraph} (hns : NoSelfLoop g) (hdf : DupFree g) (v : Coord) :
    NoSelfLoop (simpStep d acosDeg epsilon g v) ∧
      DupFree (simpStep d acosDeg epsilon g v) := by
  rcases simpStep_cases d acosDeg epsilon g v with heq | ⟨g1, g3, hnb, hc, heq⟩
  · rw [heq]
    exact ⟨hns, hdf⟩
  · rw [heq]
    have hg13 : g1 ≠ g3 := filterMap_nbrSel_pair_ne v g.edges hdf hnb
    have hdf' : DupFree (removeNode (removeEdge (removeEdge g g1 v) v g3) v) :=
      dupFree_removeNode (dupFree_removeEdge (dupFree_removeEdge hdf g1 v) v g3) v
    have hns' : NoSelfLoop (removeNode (removeEdge (removeEdge g g1 v) v g3) v) :=
      noSelfLoop_removeNode (noSelfLoop_removeEdge (noSelfLoop_removeEdge hns g1 v) v g3) v
    exact ⟨noSelfLoop_addEdge hns' _ hg13, dupFree_addEdge hdf' g1 g3 _⟩

theorem foldl_simpStep_inv {d : Coord → Coord → ℚ} {acosDeg : ℚ → ℚ} {epsilon : ℚ} :
    ∀ (L : List Coord) (g : WGraph), NoSelfLoop g → DupFree g →
      NoSelfLoop (L.foldl (simpStep d acosDeg epsilon) g) ∧
        DupFree (L.foldl (simpStep d acosDeg epsilon) g) := by
  intro L
  induction L with
  | nil =>
    intro g h1 h2
    exact ⟨h1, h2⟩
  | cons v L ih =>
    intro g h1 h2
    rw [List.foldl_cons]
    obtain ⟨h1', h2'⟩ := simpStep_inv h1 h2 v
    exact ih _ h1' h2'

/-- C8 amended: after one simplification sweep over the degree-2 snapshot,
every visited node that still has degree 2 and whose adjacency was not
changed by the later steps of the sweep (its final neighbour list equals its
neighbour list right after its own visit) has an angle deviating from 180°
by at least `epsilon`.  Without the unchanged-adjacency proviso the claim
fails: a later removal can rewire a visited node below the tolerance, see
the counterexample. -/
theorem C8_amended_pass_invariant (d : Coord → Coord → ℚ) (acosDeg : ℚ → ℚ)
    (epsilon : ℚ) (g : WGraph) (v g1 g3 : Coord) (L1 L2 : List Coord)
    (hns : NoSelfLoop g) (hdf : DupFree g)
    (hsnap : g.nodes.filter (fun x => decide (degreeOf g x = 2)) = L1 ++ v :: L2)
    (hadj : nbrs (L2.foldl (simpStep d acosDeg epsilon)
        (simpStep d acosDeg epsilon (L1.foldl (simpStep d acosDeg epsilon) g) v)) v =
      nbrs (simpStep d acosDeg epsilon (L1.foldl (simpStep d acosDeg epsilon) g) v) v)
    (hdeg : nbrs (simplify_graph d acosDeg g epsilon) v = [g1, g3]) :
    epsilon ≤ |180 - angle_of d acosDeg g1 v g3| := by
  have hfold : simplify_graph d acosDeg g epsilon =
      L2.foldl (simpStep d acosDeg epsilon)
        (simpStep d acosDeg epsilon (L1.foldl (simpStep d acosDeg epsilon) g) v) := by
    rw [simplify_graph, hsnap, List.foldl_append, List.foldl_cons]
  rw [hfold, hadj] at hdeg
  obtain ⟨hns1, hdf1⟩ := foldl_simpStep_inv L1 g hns hdf
  rcases simpStep_cases d acosDeg epsilon (L1.foldl (simpStep d acosDeg epsilon) g) v
    with heq | ⟨a, b, hnb, hc, heq⟩
  · rw [heq] at hdeg
    by_contra hcon
    rw [not_le] at hcon
    have hg1v : g1 ≠ v := nbrs_ne_self hns1 (by rw [hdeg]; exact List.mem_cons_self _ _)
    have hg3v : g3 ≠ v := nbrs_ne_self hns1 (by rw [hdeg]; simp)
    have hstep2 : simpStep d acosDeg epsilon (L1.foldl (simpStep d acosDeg epsilon) g) v =
        addEdge (removeNode (removeEdge
            (removeEdge (L1.foldl (simpStep d acosDeg epsilon) g) g1 v) v g3) v)
          g1 g3 (d g1 g3) := by
      simp only [simpStep, hdeg]
      rw [if_pos hcon]
    have hempty : nbrs (simpStep d acosDeg epsilon
        (L1.foldl (simpStep d acosDeg epsilon) g) v) v = [] := by
      rw [hstep2, nbrs_addEdge_of_ne _ g1 g3 v _ (Ne.symm hg1v) (Ne.symm hg3v),
        nbrs_removeNode_self]
    rw [heq, hdeg] at hempty
    cases hempty
  · exfalso
    have hva : a ≠ v := nbrs_ne_self hns1 (by rw [hnb]; exact List.mem_cons_self _ _)
    have hvb : b ≠ v := nbrs_ne_self hns1 (by rw [hnb]; simp)
    have hempty : nbrs (simpStep d acosDeg epsilon
        (L1.foldl (simpStep d acosDeg epsilon) g) v) v = [] := by
      rw [heq, nbrs_addEdge_of_ne _ a b v _ (Ne.symm hva) (Ne.symm hvb),
        nbrs_removeNode_self]
    rw [hdeg] at hempty
    cases hempty

/-- Unordered equality test used by the distance tables below. -/
def pairIs (p q x y : Coord) : Bool := decide ((p = x ∧ q = y) ∨ (p = y ∧ q = x))

/-! The C8 counterexample: a 4-node chain `pA–pV–pB–pC`, roughly 1 km per
hop at latitude ≈ 41°, nearly collinear with a ≈6° bend at `pV` and a ≈4°
bend at `pB`.  `dT` tabulates the haversine distances (km) of the planar
layout A = (−1,0), V = (0,0), B = (cos 6°, sin 6°), C = B + 2·(cos 2°, sin 2°);
`acosT` tabulates `degrees(acos(·))` at the three cosine values that occur.
The sweep visits `pV` first (deviation ≈ 5.96° ≥ 5°, kept), then removes
`pB` (deviation ≈ 3.97° < 5°), rewiring `pV` to `pA, pC` with deviation
≈ 2.37° < 5°. -/

def pA : Coord := (4099/100, 2)

def pV : Coord := (41, 2)

def pB : Coord := (4101/100, 2 + 1/800)

def pC : Coord := (4104/100, 2 + 1/480)

def dT : Coord → Coord → ℚ := fun p q =>
  if p = q then 0
  else if pairIs p q pA pV then 1
  else if pairIs p q pV pB then 1
  else if pairIs p q pA pB then 19973/10000
  else if pairIs p q pB pC then 2
  else if pairIs p q pV pC then 29984/10000
  else if pairIs p q pA pC then 39971/10000
  else 1

def acosT : ℚ → ℚ := fun x =>
  if x = cosArgQ 1 1 (19973/10000) then 17404/100
  else if x = cosArgQ 1 2 (29984/10000) then 17603/100
  else if x = cosArgQ 1 (29984/10000) (39971/10000) then 17663/100
  else 90

def gC8 : WGraph := make_graph dT [(pA, pV), (pV, pB), (pB, pC)]

theorem dT_AV : dT pA pV = 1 := by
  norm_num [dT, pairIs, pA, pV, Prod.ext_iff]

theorem dT_VB : dT pV pB = 1 := by
  norm_num [dT, pairIs, pA, pV, pB, Prod.ext_iff]

theorem dT_AB : dT pA pB = 19973/10000 := by
  norm_num [dT, pairIs, pA, pV, pB, Prod.ext_iff]

theorem dT_BC : dT pB pC = 2 := by
  norm_num [dT, pairIs, pA, pV, pB, pC, Prod.ext_iff]

theorem dT_VC : dT pV pC = 29984/10000 := by
  norm_num [dT, pairIs, pA, pV, pB, pC, Prod.ext_iff]

theorem dT_AC : dT pA pC = 39971/10000 := by
  norm_num [dT, pairIs, pA, pV, pB, pC, Prod.ext_iff]

theorem cosArg_1 : cosArgQ 1 1 (19973/10000) = -(198920729/200000000) := by
  norm_num [cosArgQ, min_def, max_def]

theorem cosArg_2 : cosArgQ 1 2 (29984/10000) = -(399040256/400000000) := by
  norm_num [cosArgQ, min_def, max_def]

theorem cosArg_3 : cosArgQ 1 (29984/10000) (39971/10000) = -(598640585/599680000) := by
  norm_num [cosArgQ, min_def, max_def]

theorem angle_AVB : angle_of dT acosT pA pV pB = 17404/100 := by
  rw [angle_of, dT_AV, dT_VB, dT_AB]
  rw [if_neg (by norm_num)]
  simp only [acosT]
  rw [if_pos trivial]

theorem angle_VBC : angle_of dT acosT pV pB pC = 17603/100 := by
  rw [angle_of, dT_VB, dT_BC, dT_VC]
  rw [if_neg (by norm_num)]
  simp only [acosT]
  rw [if_neg (by rw [cosArg_1, cosArg_2]; norm_num), if_pos trivial]

theorem angle_AVC : angle_of dT acosT pA pV pC = 17663/100 := by
  rw [angle_of, dT_AV, dT_VC, dT_AC]
  rw [if_neg (by norm_num)]
  simp only [acosT]
  rw [if_neg (by rw [cosArg_1, cosArg_3]; norm_num),
    if_neg (by rw [cosArg_2, cosArg_3]; norm_num), if_pos trivial]

theorem gC8_val : gC8 = ⟨[pA, pV, pB, pC],
    [(pA, pV, 1), (pV, pB, 1), (pB, pC, 2)]⟩ := by
  rw [gC8]
  norm_num [make_graph, addEdge, addNode, matchEdge, sameEnds, Prod.ext_iff,
    dT, pairIs, pA, pV, pB, pC]

theorem gC8_snapshot :
    gC8.nodes.filter (fun x => decide (degreeOf gC8 x = 2)) = [pV, pB] := by
  rw [gC8_val]
  norm_num [degreeOf, nbrs, nbrSel, Prod.ext_iff, pA, pV, pB, pC, List.filter_cons, List.filter_nil,
    List.filterMap_cons, List.filterMap_nil, List.countP_cons, List.countP_nil]

theorem gC8_nbrs_V : nbrs gC8 pV = [pA, pB] := by
  rw [gC8_val]
  norm_num [nbrs, nbrSel, Prod.ext_iff, pA, pV, pB, pC, List.filterMap]

theorem gC8_step1 : simpStep dT acosT 5 gC8 pV = gC8 := by
  simp only [simpStep, gC8_nbrs_V]
  rw [if_neg]
  rw [angle_AVB]
  norm_num [abs_of_nonneg]

theorem gC8_nbrs_B : nbrs gC8 pB = [pV, pC] := by
  rw [gC8_val]
  norm_num [nbrs, nbrSel, Prod.ext_iff, pA, pV, pB, pC, List.filterMap]

theorem gC8_step2 : simpStep dT acosT 5 gC8 pB =
    ⟨[pA, pV, pC], [(pA, pV, 1), (pV, pC, 29984/10000)]⟩ := by
  simp only [simpStep, gC8_nbrs_B]
  rw [if_pos (by rw [angle_VBC]; norm_num [abs_of_nonneg])]
  rw [dT_VC, gC8_val]
  norm_num [addEdge, addNode, removeEdge, removeNode, matchEdge, sameEnds,
    incidentB, Prod.ext_iff, pA, pV, pB, pC, List.filter_cons, List.filter_nil, List.filterMap_cons, List.filterMap_nil, List.any_cons]

theorem gC8_pass : simplify_graph dT acosT gC8 5 =
    ⟨[pA, pV, pC], [(pA, pV, 1), (pV, pC, 29984/10000)]⟩ := by
  rw [simplify_graph, gC8_snapshot, List.foldl_cons, gC8_step1, List.foldl_cons,
    List.foldl_nil, gC8_step2]

/-- C8 counterexample: `pV` is in the degree-2 snapshot and is visited by
the sweep, survives the sweep with degree 2, yet its end-of-pass angle
deviates from 180° by only ≈ 2.37° < ε = 5: removing `pB` later in the same
sweep rewired `pV` below the tolerance. -/
theorem C8_counterexample :
    gC8.nodes.filter (fun x => decide (degreeOf gC8 x = 2)) = [pV, pB] ∧
      pV ∈ (simplify_graph dT acosT gC8 5).nodes ∧
      degreeOf (simplify_graph dT acosT gC8 5) pV = 2 ∧
      nbrs (simplify_graph dT acosT gC8 5) pV = [pA, pC] ∧
      |180 - angle_of dT acosT pA pV pC| < 5 := by
  refine ⟨gC8_snapshot, ?_, ?_, ?_, ?_⟩
  · rw [gC8_pass]
    simp
  · rw [gC8_pass]
    norm_num [degreeOf, nbrs, nbrSel, Prod.ext_iff, pA, pV, pC, List.filterMap_cons, List.filterMap_nil,
      List.countP_cons, List.countP_nil]
  · rw [gC8_pass]
    norm_num [nbrs, nbrSel, Prod.ext_iff, pA, pV, pC, List.filterMap]
  · rw [angle_AVC]
    norm_num [abs_of_nonneg]

/-! Witness for the amended C8 statement: a right-angle 3-node path whose
middle node is visited and kept, with nothing after it in the sweep, so its
adjacency is trivially unchanged and the theorem yields deviation ≥ ε. -/

def vW8 : Coord := (4101/100, 2)

def gW8 : WGraph := ⟨[(41, 2), vW8, (4101/100, 201/100)],
  [((41, 2), vW8, 1), (vW8, (4101/100, 201/100), 1)]⟩

def dW8 : Coord → Coord → ℚ := fun p q =>
  if p = q then 0
  else if pairIs p q (41, 2) (4101/100, 201/100) then 14142/10000
  else 1

theorem C8_amended_pass_invariant_witness :
    NoSelfLoop gW8 ∧ DupFree gW8 ∧
      gW8.nodes.filter (fun x => decide (degreeOf gW8 x = 2)) = [] ++ vW8 :: [] ∧
      nbrs (simplify_graph dW8 acosDegW gW8 5) vW8 = [(41, 2), (4101/100, 201/100)] ∧
      5 ≤ |180 - angle_of dW8 acosDegW (41, 2) vW8 (4101/100, 201/100)| := by
  have hns : NoSelfLoop gW8 := by
    intro e he
    rcases List.mem_cons.mp he with rfl | he2
    · show ((41 : ℚ), (2 : ℚ)) ≠ vW8
      norm_num [vW8, Prod.ext_iff]
    rcases List.mem_cons.mp he2 with rfl | he3
    · show vW8 ≠ ((4101/100 : ℚ), (201/100 : ℚ))
      norm_num [vW8, Prod.ext_iff]
    · simp at he3
  have hdf : DupFree gW8 := by
    rw [DupFree]
    refine List.Pairwise.cons ?_ (List.pairwise_singleton _ _)
    intro e2 he2
    rcases List.mem_singleton.mp he2 with rfl
    norm_num [matchEdge, sameEnds, vW8, Prod.ext_iff]
  have hsnap : gW8.nodes.filter (fun x => decide (degreeOf gW8 x = 2)) =
      [] ++ vW8 :: [] := by
    norm_num [gW8, degreeOf, nbrs, nbrSel, vW8, Prod.ext_iff, List.filter_cons, List.filter_nil,
      List.filterMap_cons, List.filterMap_nil, List.countP_cons, List.countP_nil]
  have hnbg : nbrs gW8 vW8 = [(41, 2), (4101/100, 201/100)] := by
    norm_num [gW8, nbrs, nbrSel, vW8, Prod.ext_iff, List.filterMap]
  have hstep : simpStep dW8 acosDegW 5 gW8 vW8 = gW8 := by
    simp only [simpStep, hnbg]
    rw [if_neg]
    have hang : angle_of dW8 acosDegW (41, 2) vW8 (4101/100, 201/100) = 90 := by
      rw [angle_of]
      rw [if_neg (by norm_num [dW8, pairIs, vW8, Prod.ext_iff])]
      have hd1 : dW8 (41, 2) vW8 = 1 := by
        norm_num [dW8, pairIs, vW8, Prod.ext_iff]
      have hd2 : dW8 vW8 (4101/100, 201/100) = 1 := by
        norm_num [dW8, pairIs, vW8, Prod.ext_iff]
      have hd3 : dW8 (41, 2) (4101/100, 201/100) = 14142/10000 := by
        norm_num [dW8, pairIs, vW8, Prod.ext_iff]
      rw [hd1, hd2, hd3]
      rw [acosDegW]
      rw [if_neg (by norm_num [cosArgQ, min_def, max_def])]
    rw [hang]
    norm_num [abs_of_nonneg]
  have hdeg : nbrs (simplify_graph dW8 acosDegW gW8 5) vW8 =
      [(41, 2), (4101/100, 201/100)] := by
    rw [simplify_graph, hsnap]
    simp only [List.nil_append, List.foldl_cons, List.foldl_nil]
    rw [hstep, hnbg]
  have hadj : nbrs (([] : List Coord).foldl (simpStep dW8 acosDegW 5)
      (simpStep dW8 acosDegW 5 (([] : List Coord).foldl (simpStep dW8 acosDegW 5) gW8) vW8))
        vW8 =
      nbrs (simpStep dW8 acosDegW 5
        (([] : List Coord).foldl (simpStep dW8 acosDegW 5) gW8) vW8) vW8 := rfl
  refine ⟨hns, hdf, hsnap, hdeg, ?_⟩
  exact C8_amended_pass_invariant dW8 acosDegW 5 gW8 vW8 (41, 2) (4101/100, 201/100)
    [] [] hns hdf hsnap hadj hdeg

/-! ## Claim C4: per-monument route results (`app.py` lines 386–405) -/

def minO : Option ℚ → Option ℚ → Option ℚ
  | none, o => o
  | some x, none => some x
  | some x, some y => some (min x y)

/-- One relaxation of the directed edge `src → tgt` with weight `w`. -/
def relaxTo (dist : Coord → Option ℚ) (src tgt : Coord) (w : ℚ) : Coord → Option ℚ :=
  fun v => if v = tgt then minO (dist v) ((dist src).map (fun x => x + w)) else dist v

/-- Relax every stored edge once, in both directions. -/
def relaxEdges (dist : Coord → Option ℚ) (es : List (Coord × Coord × ℚ)) :
    Coord → Option ℚ :=
  es.foldl (fun dd e => relaxTo (relaxTo dd e.1 e.2.1 e.2.2) e.2.1 e.1 e.2.2) dist

def iterRelax (es : List (Coord × Coord × ℚ)) : ℕ → (Coord → Option ℚ) → Coord → Option ℚ
  | 0, dist => dist
  | n + 1, dist => iterRelax es n (relaxEdges dist es)

/-- Modelled from the spec: the skeleton `routes` module called by
`process_route_calculation` (`routes.dist`, app.py line 390) and the library
Dijkstra behind `GraphService.shortest_path` (`nx.single_source_dijkstra`,
graph.py line 173) are not under `src/`; spec §4.6 asks for a
non-negative-weight single-source shortest-path computation whose "no path"
outcome surfaces as an exception.  Bellman–Ford-style relaxation over the
undirected edge list realizes that contract in exact arithmetic, with
`none` playing the role of the Python exception. -/
def routeDist (g : WGraph) (s t : Coord) : Option ℚ :=
  iterRelax g.edges g.nodes.length (fun v => if v = s then some 0 else none) t

structure RouteEntry where
  name : String
  distance : Option ℚ
  err : Option String
deriving DecidableEq, Repr

/-- The per-monument result loop of `process_route_calculation` (app.py
lines 386–405): a successful distance yields a numeric entry; the exception
path yields a `None` distance together with the reason string, and the loop
continues with the next monument either way. -/
def monumentEntry (g : WGraph) (start : Coord) (m : MonumentQ) : RouteEntry :=
  match routeDist g start m.loc with
  | some x => ⟨m.name, some x, none⟩
  | none => ⟨m.name, none, some "No path available"⟩

def monument_results (g : WGraph) (start : Coord) (ms : List MonumentQ) :
    List RouteEntry :=
  ms.map (monumentEntry g start)

def NonNegD (dist : Coord → Option ℚ) : Prop := ∀ v x, dist v = some x → 0 ≤ x

theorem nonNeg_minO {o1 o2 : Option ℚ} (h1 : ∀ x, o1 = some x → 0 ≤ x)
    (h2 : ∀ x, o2 = some x → 0 ≤ x) : ∀ x, minO o1 o2 = some x → 0 ≤ x := by
  intro x h
  cases o1 with
  | none => exact h2 x h
  | some a =>
    cases o2 with
    | none => exact h1 x h
    | some b =>
      have hx : min a b = x := Option.some_inj.mp h
      rw [← hx]
      exact le_min (h1 a rfl) (h2 b rfl)

theorem nonNeg_relaxTo {dist : Coord → Option ℚ} (h : NonNegD dist)
    (src tgt : Coord) {w : ℚ} (hw : 0 ≤ w) : NonNegD (relaxTo dist src tgt w) := by
  intro v x hx
  rw [relaxTo] at hx
  split at hx
  · refine nonNeg_minO (fun y hy => h v y hy) ?_ x hx
    intro y hy
    cases hsrc : dist src with
    | none =>
      rw [hsrc] at hy
      cases hy
    | some a =>
      rw [hsrc] at hy
      have hya : a + w = y := Option.some_inj.mp hy
      rw [← hya]
      exact add_nonneg (h src a hsrc) hw
  · exact h v x hx

theorem nonNeg_relaxEdges :
    ∀ (es : List (Coord × Coord × ℚ)) (dist : Coord → Option ℚ),
      NonNegD dist → (∀ e ∈ es, 0 ≤ e.2.2) → NonNegD (relaxEdges dist es) := by
  intro es
  induction es with
  | nil =>
    intro dist h _
    exact h
  | cons e es ih =>
    intro dist h hw
    have hwe : 0 ≤ e.2.2 := hw e (List.mem_cons_self e es)
    have h1 : NonNegD (relaxTo (relaxTo dist e.1 e.2.1 e.2.2) e.2.1 e.1 e.2.2) :=
      nonNeg_relaxTo (nonNeg_relaxTo h _ _ hwe) _ _ hwe
    exact ih _ h1 (fun e' he' => hw e' (List.mem_cons_of_mem e he'))

theorem nonNeg_iterRelax :
    ∀ (n : ℕ) (es : List (Coord × Coord × ℚ)) (dist : Coord → Option ℚ),
      NonNegD dist → (∀ e ∈ es, 0 ≤ e.2.2) → NonNegD (iterRelax es n dist) := by
  intro n
  induction n with
  | zero =>
    intro es dist h _
    exact h
  | succ n ih =>
    intro es dist h hw
    exact ih es _ (nonNeg_relaxEdges es dist h hw) hw

theorem routeDist_nonneg {g : WGraph} {s t : Coord} {x : ℚ}
    (hw : ∀ e ∈ g.edges, 0 ≤ e.2.2) (h : routeDist g s t = some x) : 0 ≤ x := by
  have hinit : NonNegD (fun v => if v = s then some (0 : ℚ) else none) := by
    intro v y hy
    simp only at hy
    split at hy
    · have h0 : (0 : ℚ) = y := Option.some_inj.mp hy
      rw [← h0]
    · cases hy
  exact nonNeg_iterRelax g.nodes.length g.edges _ hinit hw t x h

/-- C4: with non-negative edge weights, every per-monument entry produced by
the route-calculation loop carries a non-negative distance when it carries
one at all; an unreachable monument (the exception path of `routes.dist`)
gets a `None` distance with the "No path available" reason instead of a
number; and no monument aborts the loop — there is exactly one entry per
monument. -/
theorem C4_route_results (g : WGraph) (start : Coord) (ms : List MonumentQ)
    (hw : ∀ e ∈ g.edges, 0 ≤ e.2.2) :
    (monument_results g start ms).length = ms.length ∧
    ∀ r ∈ monument_results g start ms,
      (∀ x, r.distance = some x → 0 ≤ x) ∧
      (r.distance = none → r.err = some "No path available") ∧
      (r.err = none → ∃ x, r.distance = some x) := by
  refine ⟨List.length_map _ _, ?_⟩
  intro r hr
  rcases List.mem_map.mp hr with ⟨m, hm, rfl⟩
  rw [monumentEntry]
  cases hd : routeDist g start m.loc with
  | none =>
    refine ⟨?_, fun _ => rfl, ?_⟩
    · intro x hx
      cases hx
    · intro h
      cases h
  | some x =>
    refine ⟨?_, ?_, fun _ => ⟨x, rfl⟩⟩
    · intro y hy
      have hxy : x = y := Option.some_inj.mp hy
      rw [← hxy]
      exact routeDist_nonneg hw hd
    · intro h
      cases h

def gC4 : WGraph := make_graph dLon [((41, 2), (41, 21/10))]

def msC4 : List MonumentQ := [⟨"a", (41, 21/10)⟩, ⟨"b", (50, 50)⟩]

theorem C4_route_results_witness :
    (∀ e ∈ gC4.edges, 0 ≤ e.2.2) ∧
      (monument_results gC4 (41, 2) msC4).length = msC4.length ∧
      monument_results gC4 (41, 2) msC4 =
        [⟨"a", some (42/5), none⟩, ⟨"b", none, some "No path available"⟩] := by
  have hg : gC4 = ⟨[(41, 2), (41, 21/10)], [((41, 2), (41, 21/10), 42/5)]⟩ := by
    norm_num [gC4, make_graph, addEdge, addNode, matchEdge, sameEnds, dLon,
      Prod.ext_iff, abs_of_nonpos, abs_of_nonneg]
  have hw : ∀ e ∈ gC4.edges, 0 ≤ e.2.2 := by
    rw [hg]
    intro e he
    rcases List.mem_singleton.mp he with rfl
    norm_num
  refine ⟨hw, (C4_route_results gC4 (41, 2) msC4 hw).1, ?_⟩
  rw [hg]
  norm_num [monument_results, monumentEntry, msC4, routeDist, iterRelax, relaxEdges,
    relaxTo, minO, Prod.ext_iff]

end TrailBlazer
